import Mathlib

/-! The package `endpoint`: targets, their comparison, and endpoint construction.

A shallow embedding of `endpoint/endpoint.go`.

Modelling conventions.

* A Go `string` is embedded as a Lean `String`.  Go compares strings byte by byte; on
  well-formed UTF-8 that order coincides with the code-point order used here, and the byte
  `.` never occurs inside a multi-byte encoding, so suffix tests agree as well.
* Where a `Targets` value is only built or read (the constructors, the rendering) it is
  embedded as the list of its elements.
* `Same` and `IsLess` sort both operands in place, and two Go slices may be windows of one
  backing array.  These methods, and `Len`, `Less`, `Swap` and the sort they go through, are
  therefore embedded over a `Memory` that holds the backing arrays and over slice headers
  (`Slice`: offset and length) for the receiver and the argument; they return the memory as
  the call leaves it.  Two operands may be disjoint, identical or partly overlapping windows.
* An index expression `t[i]` panics when `i` is out of range; methods that index return an
  `Option`, with `none` standing for the panic.
* `TTL` is an `int64`; no arithmetic is done on it, so it is embedded as an `Int`.
-/

/-! ## Library functions used by the source -/

/-- Go's built-in `a < b` on strings: lexicographic comparison of the two sequences. -/
def strLess (a b : String) : Bool := decide (a.data < b.data)

namespace strings

/-- The library's `strings.HasSuffix`:
`len(s) >= len(suffix) && s[len(s)-len(suffix):] == suffix`. -/
def HasSuffix (s suffix : String) : Bool :=
  decide (s.data.length ≥ suffix.data.length) &&
    decide (s.data.drop (s.data.length - suffix.data.length) = suffix.data)

/-- The library's `strings.TrimSuffix`:
`if HasSuffix(s, suffix) { return s[:len(s)-len(suffix)] }; return s`. -/
def TrimSuffix (s suffix : String) : String :=
  if HasSuffix s suffix then ⟨s.data.take (s.data.length - suffix.data.length)⟩ else s

/-- The library's `strings.Join`: the elements with `sep` between consecutive ones. -/
def Join : List String → String → String
  | [], _ => ""
  | [a], _ => a
  | a :: rest, sep => rest.foldl (fun b s => b ++ sep ++ s) a

end strings

/-! ## TTL -/

/-- The Go type `TTL int64`. -/
abbrev TTL := Int

/-- Source: `func (ttl TTL) IsConfigured() bool { return ttl > 0 }` -/
def TTL.IsConfigured (ttl : TTL) : Bool := decide (ttl > 0)

/-! ## Targets -/

/-- The Go type `Targets []string`, as the list of the elements the slice holds. -/
abbrev Targets := List String

/-- Source `NewTargets`: a fresh slice of capacity `len(target)` with `target...` appended. -/
def NewTargets (target : List String) : Targets :=
  let t : Targets := []
  t ++ target

/-! ## Slices in memory -/

/-- The elements of the backing arrays, laid out one array after the other. -/
abbrev Memory := List String

/-- A slice header: the window of `len` elements that starts at element `off` of the
memory.  (The capacity plays no part in the methods embedded here.) -/
structure Slice where
  off : Nat
  len : Nat
  deriving DecidableEq

/-- The collection a slice holds: the elements of its window, in order. -/
def Slice.read (t : Slice) (mem : Memory) : Targets := (mem.drop t.off).take t.len

/-- The index expression `t[i]` as a value: a panic unless `i < len(t)`, and otherwise the
element `off + i` of the memory. -/
def Slice.index (t : Slice) (mem : Memory) (i : Nat) : Option String :=
  if i < t.len then mem[t.off + i]? else none

/-- The assignment `t[i] = v`: a panic unless `i < len(t)`, and otherwise a write to the
element `off + i` of the memory. -/
def Slice.assign (t : Slice) (mem : Memory) (i : Nat) (v : String) : Option Memory :=
  if i < t.len ∧ t.off + i < mem.length then some (mem.set (t.off + i) v) else none

/-! ## The `sort.Interface` methods of `Targets` -/

/-- Source: `func (t Targets) Len() int { return len(t) }` -/
def Targets.Len (t : Slice) : Nat := t.len

/-- Source: `func (t Targets) Less(i, j int) bool { return t[i] < t[j] }` -/
def Targets.Less (t : Slice) (i j : Nat) (mem : Memory) : Option Bool :=
  match t.index mem i, t.index mem j with
  | some a, some b => some (strLess a b)
  | _, _ => none

/-- Source: `func (t Targets) Swap(i, j int) { t[i], t[j] = t[j], t[i] }`: both operands are
read, then `t[i]` and `t[j]` are assigned in that order. -/
def Targets.Swap (t : Slice) (i j : Nat) (mem : Memory) : Option Memory :=
  match t.index mem i, t.index mem j with
  | some a, some b =>
    match t.assign mem i b with
    | none => none
    | some mem1 => t.assign mem1 j a
  | _, _ => none

/-! ## The sort library

`sort.Sort` and `sort.Stable` belong to the Go standard library.  Their contract: the data is
rearranged, through `Len`, `Less` and `Swap` only, into ascending order as determined by `Less`.
They are embedded by the library's own `insertionSort` routine, which is what both run on short
slices.  Two strings that are equivalent for `<` are equal, so the ascending arrangement of a
slice of strings is unique (`sorted_perm_unique` below): every implementation that meets the
contract leaves the same contents, and the stability of `sort.Stable` cannot be observed. -/

namespace sort

/-- The inner loop of the library's `insertionSort`:
`for j := i; j > a && data.Less(j, j-1); j-- { data.Swap(j, j-1) }`. -/
def insertionInner (data : Slice) (a : Nat) : Nat → Memory → Option Memory
  | 0, mem => some mem
  | j + 1, mem =>
    if j + 1 > a then
      match Targets.Less data (j + 1) j mem with
      | none => none
      | some true =>
        match Targets.Swap data (j + 1) j mem with
        | none => none
        | some mem1 => insertionInner data a j mem1
      | some false => some mem
    else some mem

/-- The outer loop of the library's `insertionSort`, `for i := a + 1; i < b; i++ { ... }`,
with `n` iterations left to run. -/
def insertionLoop (data : Slice) (a : Nat) : Nat → Nat → Memory → Option Memory
  | 0, _, mem => some mem
  | n + 1, i, mem =>
    match insertionInner data a i mem with
    | none => none
    | some mem1 => insertionLoop data a n (i + 1) mem1

/-- The library's `insertionSort(data, a, b)`, which sorts `data[a:b]`. -/
def insertionSort (data : Slice) (a b : Nat) (mem : Memory) : Option Memory :=
  insertionLoop data a (b - (a + 1)) (a + 1) mem

/-- The library's `sort.Sort(data)` (`Sort` is a reserved word here, hence the underscore). -/
def Sort_ (data : Slice) (mem : Memory) : Option Memory :=
  insertionSort data 0 (Targets.Len data) mem

/-- The library's `sort.Stable(data)`. -/
def Stable (data : Slice) (mem : Memory) : Option Memory :=
  insertionSort data 0 (Targets.Len data) mem

end sort

/-! ## Comparing two target collections -/

/-- The loop of `Same`, at index `i` with `n` elements of `t` still to visit:
`for i, e := range t { if e != o[i] { return false } }; return true`. -/
def Targets.sameLoop (t o : Slice) : Nat → Nat → Memory → Option Bool
  | 0, _, _ => some true
  | n + 1, i, mem =>
    match t.index mem i with
    | none => none
    | some e =>
      match o.index mem i with
      | none => none
      | some x => if e != x then some false else sameLoop t o n (i + 1) mem

/-- Source: `func (t Targets) Same(o Targets) bool`.  The result is the returned boolean and
the memory after the call. -/
def Targets.Same (t o : Slice) (mem : Memory) : Option (Bool × Memory) :=
  if t.len != o.len then some (false, mem)
  else
    match sort.Stable t mem with
    | none => none
    | some mem1 =>
      match sort.Stable o mem1 with
      | none => none
      | some mem2 =>
        match Targets.sameLoop t o t.len 0 mem2 with
        | none => none
        | some b => some (b, mem2)

/-- The loop of `IsLess`, at index `i` with `n` elements of `t` still to visit:
`for i, e := range t { if e != o[i] { return e < o[i] } }; return false`. -/
def Targets.isLessLoop (t o : Slice) : Nat → Nat → Memory → Option Bool
  | 0, _, _ => some false
  | n + 1, i, mem =>
    match t.index mem i with
    | none => none
    | some e =>
      match o.index mem i with
      | none => none
      | some x => if e != x then some (strLess e x) else isLessLoop t o n (i + 1) mem

/-- Source: `func (t Targets) IsLess(o Targets) bool`.  The result is the returned boolean
and the memory after the call. -/
def Targets.IsLess (t o : Slice) (mem : Memory) : Option (Bool × Memory) :=
  if t.len < o.len then some (true, mem)
  else if t.len > o.len then some (false, mem)
  else
    match sort.Sort_ t mem with
    | none => none
    | some mem1 =>
      match sort.Sort_ o mem1 with
      | none => none
      | some mem2 =>
        match Targets.isLessLoop t o t.len 0 mem2 with
        | none => none
        | some b => some (b, mem2)

/-- Source: `func (t Targets) String() string { return strings.Join(t, ";") }` -/
def Targets.String (t : Targets) : String := strings.Join t ";"

/-! ## Endpoint -/

/-- The type `Labels` is declared in another file of the package; it is a map from strings
to strings, embedded as an association list. -/
abbrev Labels := List (String × String)

/-- Modelled from the spec: `NewLabels` is defined in another file of the package; the spec
says the constructor "initializes an empty labels mapping". -/
def NewLabels : Labels := []

/-- The Go struct `Endpoint`. -/
structure Endpoint where
  DNSName : String
  Targets : Targets
  RecordType : String
  RecordTTL : TTL
  Labels : Labels
  deriving DecidableEq

/-- Source: `func NewEndpointWithTTL(dnsName, target, recordType string, ttl TTL) *Endpoint` -/
def NewEndpointWithTTL (dnsName target recordType : String) (ttl : TTL) : Endpoint :=
  { DNSName := strings.TrimSuffix dnsName "."
    Targets := [strings.TrimSuffix target "."]
    RecordType := recordType
    Labels := NewLabels
    RecordTTL := ttl }

/-- Source: `func NewEndpoint(dnsName, target, recordType string) *Endpoint` -/
def NewEndpoint (dnsName target recordType : String) : Endpoint :=
  NewEndpointWithTTL dnsName target recordType (0 : Int)

/-! ## Rendering

`fmt.Sprintf` belongs to the Go standard library.  The verb `%s` writes a string operand as it
is and, for an operand with a `String()` method, what that method returns; the verb `%d`
writes an integer in base 10, with a leading `-` when it is negative. -/

namespace fmt

/-- The digit loop of the library's integer formatting in base 10, which fills the buffer
from its end: `for u >= 10 { next := u / 10; buf[i] = '0' + u - next*10; u = next }` and then
`buf[i] = '0' + u`.  The first argument bounds the number of iterations; `u` itself is more
than enough. -/
def decimalLoop : Nat → Nat → List Char → List Char
  | 0, u, buf => Char.ofNat (48 + u) :: buf
  | fuel + 1, u, buf =>
    if u ≥ 10 then decimalLoop fuel (u / 10) (Char.ofNat (48 + u % 10) :: buf)
    else Char.ofNat (48 + u) :: buf

/-- The verb `%d` on a signed integer: the digits of its magnitude, after a `-` when it is
negative. -/
def formatDecimal (n : Int) : String :=
  if n < 0 then ⟨'-' :: decimalLoop n.natAbs n.natAbs []⟩
  else ⟨decimalLoop n.natAbs n.natAbs []⟩

end fmt

/-- Source: `func (e *Endpoint) String() string`, which returns
`fmt.Sprintf("%s %d IN %s %s", e.DNSName, e.RecordTTL, e.RecordType, e.Targets)`; the last
operand is rendered by `Targets.String`. -/
def Endpoint.String (e : Endpoint) : String :=
  e.DNSName ++ " " ++ fmt.formatDecimal e.RecordTTL ++ " IN " ++ e.RecordType ++ " " ++
    Targets.String e.Targets

/-! ## Specification side -/

/-- The ascending-sorted form of a collection: the arrangement of its values in which no
value is followed by a smaller one (used to state what the comparisons compute). -/
def sortedForm (t : Targets) : Targets :=
  t.insertionSort (fun a b => strLess b a = false)

/-- The relation `IsLess` decides, in closed form: a shorter collection comes first, and
collections of one length are ranked by their sorted forms, compared lexicographically. -/
def ranksBelow (A B : Targets) : Prop :=
  A.length < B.length ∨ (A.length = B.length ∧ sortedForm A < sortedForm B)

/-- The relation `Same` decides, in closed form: equal length and equal sorted forms. -/
def sameValues (A B : Targets) : Prop :=
  A.length = B.length ∧ sortedForm A = sortedForm B

/-- The decimal numeral of a natural number, most significant digit first: `0` for zero, and
otherwise its base-10 digits, without a leading zero. -/
def decimalDigits (n : Nat) : List Char :=
  if n = 0 then ['0'] else (Nat.digits 10 n).reverse.map (fun k => Char.ofNat (48 + k))

/-- The number of dots a string ends in: 0 for `"a.b"`, 1 for `"a.b."`, 2 for `"a.b.."`. -/
def trailingDots (s : String) : Nat :=
  (s.data.reverse.takeWhile (fun c => c == '.')).length


/-- A slice header is well formed in a memory when its window lies within the memory, as
every Go slice lies within its backing array. -/
def Slice.within (t : Slice) (mem : Memory) : Prop := t.off + t.len ≤ mem.length

/-- Two slices share no storage: one of them is empty, or their windows do not meet. -/
def Slice.apart (t o : Slice) : Prop :=
  t.len = 0 ∨ o.len = 0 ∨ t.off + t.len ≤ o.off ∨ o.off + o.len ≤ t.off

/-- Two slices do not partly overlap: they are one and the same slice, or they share no
storage. -/
def Slice.unshared (t o : Slice) : Prop := t = o ∨ t.apart o

instance Slice.decidableWithin (t : Slice) (mem : Memory) : Decidable (t.within mem) := by
  unfold Slice.within
  infer_instance

instance Slice.decidableApart (t o : Slice) : Decidable (t.apart o) := by
  unfold Slice.apart
  infer_instance

instance Slice.decidableUnshared (t o : Slice) : Decidable (t.unshared o) := by
  unfold Slice.unshared
  infer_instance

/-- The memory with the window of a slice holding `cs` instead, everything else as it was. -/
def Slice.write (t : Slice) (mem : Memory) (cs : List String) : Memory :=
  mem.take t.off ++ cs ++ mem.drop (t.off + t.len)


/-! ## The order on strings -/

theorem strLess_iff_lt (a b : String) : strLess a b = true ↔ a < b := by
  simp [strLess]

theorem strLess_eq_false_iff (a b : String) : strLess a b = false ↔ b ≤ a := by
  rw [← not_lt, ← strLess_iff_lt]
  simp

/-! ## Indexing, `Less` and `Swap` -/

theorem getElem?_mid (p : List String) (x : String) (s : List String) :
    (p ++ x :: s)[p.length]? = some x := by
  rw [List.getElem?_append_right (le_refl _)]
  simp

theorem getElem?_mid_succ (p : List String) (y x : String) (s : List String) :
    (p ++ y :: x :: s)[p.length + 1]? = some x := by
  rw [List.getElem?_append_right (by omega)]
  simp


/-! ## Windows of the memory -/

theorem index_window (t : Slice) (bef cs aft : List String) (i : Nat)
    (hoff : t.off = bef.length) (hlen : t.len = cs.length) :
    t.index (bef ++ cs ++ aft) i = cs[i]? := by
  unfold Slice.index
  by_cases hi : i < t.len
  · rw [if_pos hi, hoff, List.append_assoc, List.getElem?_append_right (by omega)]
    simp only [Nat.add_sub_cancel_left]
    rw [List.getElem?_append_left (by omega)]
  · rw [if_neg hi]
    exact (List.getElem?_eq_none (by omega)).symm

theorem assign_window (t : Slice) (bef cs aft : List String) (i : Nat) (v : String)
    (hoff : t.off = bef.length) (hlen : t.len = cs.length) (hi : i < cs.length) :
    t.assign (bef ++ cs ++ aft) i v = some (bef ++ cs.set i v ++ aft) := by
  unfold Slice.assign
  rw [if_pos ⟨by omega, by simp; omega⟩, hoff, List.append_assoc,
    List.set_append_right _ _ (by omega)]
  simp only [Nat.add_sub_cancel_left]
  rw [List.set_append_left _ _ (by omega), List.append_assoc]

theorem Less_adjacent (t : Slice) (bef aft p : List String) (y x : String) (s : List String)
    (hoff : t.off = bef.length) (hlen : t.len = (p ++ y :: x :: s).length) :
    Targets.Less t (p.length + 1) p.length (bef ++ (p ++ y :: x :: s) ++ aft) =
      some (strLess x y) := by
  unfold Targets.Less
  rw [index_window t bef _ aft _ hoff hlen, index_window t bef _ aft _ hoff hlen,
    getElem?_mid_succ, getElem?_mid]

theorem Swap_adjacent (t : Slice) (bef aft p : List String) (y x : String) (s : List String)
    (hoff : t.off = bef.length) (hlen : t.len = (p ++ y :: x :: s).length) :
    Targets.Swap t (p.length + 1) p.length (bef ++ (p ++ y :: x :: s) ++ aft) =
      some (bef ++ (p ++ x :: y :: s) ++ aft) := by
  unfold Targets.Swap
  rw [index_window t bef _ aft _ hoff hlen, index_window t bef _ aft _ hoff hlen,
    getElem?_mid_succ, getElem?_mid]
  simp only
  rw [assign_window t bef _ aft _ _ hoff hlen (by simp)]
  simp only
  rw [assign_window t bef _ aft _ _ hoff (by simpa using hlen) (by simp)]
  congr 3
  rw [List.set_append_right _ _ (by omega)]
  simp only [Nat.add_sub_cancel_left, List.set_cons_succ, List.set_cons_zero]
  rw [List.set_append_right _ _ (by omega)]
  simp

/-! ## Correctness of the sort -/

theorem insertionInner_spec : ∀ (n : Nat) (pre : List String) (x : String) (suf : List String),
    pre.length = n → pre.Sorted (· ≤ ·) →
    ∀ (t : Slice) (bef aft : List String), t.off = bef.length →
      t.len = (pre ++ x :: suf).length →
      ∃ ins, sort.insertionInner t 0 n (bef ++ (pre ++ x :: suf) ++ aft) =
          some (bef ++ (ins ++ suf) ++ aft) ∧
        ins.Sorted (· ≤ ·) ∧ ins.Perm (pre ++ [x]) := by
  intro n
  induction n with
  | zero =>
    intro pre x suf hlen _ t bef aft _ _
    have hpre : pre = [] := List.length_eq_zero.mp hlen
    subst hpre
    exact ⟨[x], by simp [sort.insertionInner], by simp, List.Perm.refl _⟩
  | succ j ih =>
    intro pre x suf hlen hs t bef aft hoff hlent
    obtain ⟨p, y, rfl⟩ : ∃ p y, pre = p ++ [y] := by
      rcases List.eq_nil_or_concat pre with h | ⟨p, y, h⟩
      · subst h; simp at hlen
      · exact ⟨p, y, by simpa using h⟩
    have hp : p.length = j := by simpa using hlen
    have hsp : p.Sorted (· ≤ ·) := (List.pairwise_append.mp hs).1
    have hle : ∀ a ∈ p, a ≤ y := fun a ha =>
      (List.pairwise_append.mp hs).2.2 a ha y (by simp)
    have hdata : p ++ [y] ++ x :: suf = p ++ y :: x :: suf := by simp
    rw [hdata] at hlent ⊢
    subst hp
    unfold sort.insertionInner
    rw [if_pos (by omega), Less_adjacent t bef aft p y x suf hoff hlent]
    by_cases hxy : strLess x y = true
    · rw [hxy]
      simp only [Swap_adjacent t bef aft p y x suf hoff hlent]
      obtain ⟨ins, hrun, hsorted, hperm⟩ :=
        ih p x (y :: suf) rfl hsp t bef aft hoff (by simpa using hlent)
      refine ⟨ins ++ [y], ?_, ?_, ?_⟩
      · rw [hrun]; simp
      · refine List.pairwise_append.mpr ⟨hsorted, by simp, ?_⟩
        intro a ha b hb
        have hb' : b = y := by simpa using hb
        subst hb'
        have ha' : a ∈ p ++ [x] := hperm.subset ha
        rcases List.mem_append.mp ha' with h | h
        · exact hle a h
        · have : a = x := by simpa using h
          subst this
          exact le_of_lt ((strLess_iff_lt _ _).mp hxy)
      · calc (ins ++ [y]).Perm (p ++ [x] ++ [y]) := hperm.append_right [y]
          _ = p ++ ([x] ++ [y]) := by simp
          _ |>.Perm (p ++ ([y] ++ [x])) := (List.perm_append_comm).append_left p
          _ = p ++ [y] ++ [x] := by simp
    · have hxy' : strLess x y = false := by simpa using hxy
      rw [hxy']
      refine ⟨p ++ [y] ++ [x], by simp, ?_, List.Perm.refl _⟩
      have hyx : y ≤ x := (strLess_eq_false_iff _ _).mp hxy'
      refine List.pairwise_append.mpr ⟨hs, by simp, ?_⟩
      intro a ha b hb
      have hb' : b = x := by simpa using hb
      subst hb'
      rcases List.mem_append.mp ha with h | h
      · exact le_trans (hle a h) hyx
      · have : a = y := by simpa using h
        subst this
        exact hyx

theorem insertionLoop_spec : ∀ (n : Nat) (pre rest : List String),
    rest.length = n → pre.Sorted (· ≤ ·) →
    ∀ (t : Slice) (bef aft : List String), t.off = bef.length →
      t.len = (pre ++ rest).length →
      ∃ s, sort.insertionLoop t 0 n pre.length (bef ++ (pre ++ rest) ++ aft) =
          some (bef ++ s ++ aft) ∧
        s.Sorted (· ≤ ·) ∧ s.Perm (pre ++ rest) := by
  intro n
  induction n with
  | zero =>
    intro pre rest hlen hs t bef aft _ _
    have hrest : rest = [] := List.length_eq_zero.mp hlen
    subst hrest
    exact ⟨pre, by simp [sort.insertionLoop], hs, by simp⟩
  | succ k ih =>
    intro pre rest hlen hs t bef aft hoff hlent
    obtain ⟨x, suf, rfl⟩ : ∃ x suf, rest = x :: suf := by
      cases rest with
      | nil => simp at hlen
      | cons x suf => exact ⟨x, suf, rfl⟩
    obtain ⟨ins, hrun, hsorted, hperm⟩ :=
      insertionInner_spec pre.length pre x suf rfl hs t bef aft hoff hlent
    have hlen_ins : ins.length = pre.length + 1 := by simpa using hperm.length_eq
    obtain ⟨s, hloop, hss, hsp⟩ := ih ins suf (by simpa using hlen) hsorted t bef aft hoff
      (by simp only [List.length_append, List.length_cons] at hlent ⊢; omega)
    refine ⟨s, ?_, hss, ?_⟩
    · unfold sort.insertionLoop
      rw [hrun]
      simp only
      rw [← hlen_ins]
      exact hloop
    · calc s.Perm (ins ++ suf) := hsp
        _ |>.Perm (pre ++ [x] ++ suf) := hperm.append_right suf
        _ = pre ++ x :: suf := by simp

theorem insertionSort_spec (t : Slice) (bef cs aft : List String)
    (hoff : t.off = bef.length) (hlen : t.len = cs.length) :
    ∃ s, sort.insertionSort t 0 t.len (bef ++ cs ++ aft) = some (bef ++ s ++ aft) ∧
      s.Sorted (· ≤ ·) ∧ s.Perm cs := by
  cases cs with
  | nil =>
    refine ⟨[], ?_, by simp, by simp⟩
    have h0 : t.len = 0 := by simpa using hlen
    simp [sort.insertionSort, sort.insertionLoop, h0]
  | cons x rest =>
    obtain ⟨s, hrun, hs, hp⟩ :=
      insertionLoop_spec rest.length [x] rest rfl (by simp) t bef aft hoff (by simpa using hlen)
    refine ⟨s, ?_, hs, by simpa using hp⟩
    unfold sort.insertionSort
    have h1 : t.len - (0 + 1) = rest.length := by
      simp only [List.length_cons] at hlen
      omega
    rw [h1]
    simpa using hrun
/-- Under the order of strings a slice has exactly one ascending arrangement. -/
theorem sorted_perm_unique (s1 s2 t : List String) (h1 : s1.Sorted (· ≤ ·)) (p1 : s1.Perm t)
    (h2 : s2.Sorted (· ≤ ·)) (p2 : s2.Perm t) : s1 = s2 :=
  List.eq_of_perm_of_sorted (p1.trans p2.symm) h1 h2

theorem orderedInsert_strLess (a : String) (l : List String) :
    List.orderedInsert (fun a b => strLess b a = false) a l =
      List.orderedInsert (· ≤ ·) a l := by
  induction l with
  | nil => rfl
  | cons b l ih =>
    simp only [List.orderedInsert]
    by_cases h : a ≤ b
    · rw [if_pos h, if_pos ((strLess_eq_false_iff _ _).mpr h)]
    · rw [if_neg h, if_neg (fun h' => h ((strLess_eq_false_iff _ _).mp h')), ih]

theorem sortedForm_eq (t : Targets) : sortedForm t = t.insertionSort (· ≤ ·) := by
  unfold sortedForm
  induction t with
  | nil => rfl
  | cons a l ih => simp only [List.insertionSort, ih, orderedInsert_strLess]

theorem sortedForm_sorted (t : Targets) : (sortedForm t).Sorted (· ≤ ·) := by
  rw [sortedForm_eq]; exact List.sorted_insertionSort _ t

theorem sortedForm_perm (t : Targets) : (sortedForm t).Perm t := by
  rw [sortedForm_eq]; exact List.perm_insertionSort _ t

theorem sortedForm_length (t : Targets) : (sortedForm t).length = t.length :=
  (sortedForm_perm t).length_eq

theorem sortedForm_eq_iff_perm (A B : Targets) : sortedForm A = sortedForm B ↔ A.Perm B := by
  constructor
  · intro h
    exact ((sortedForm_perm A).symm.trans (h ▸ List.Perm.refl _)).trans (sortedForm_perm B)
  · intro h
    exact sorted_perm_unique _ _ B (sortedForm_sorted A) ((sortedForm_perm A).trans h)
      (sortedForm_sorted B) (sortedForm_perm B)

theorem sortedForm_of_sorted (s t : Targets) (hs : s.Sorted (· ≤ ·)) (hp : s.Perm t) :
    s = sortedForm t :=
  sorted_perm_unique _ _ t hs hp (sortedForm_sorted t) (sortedForm_perm t)


/-! ## Reading and writing a window -/

theorem read_getElem? (t : Slice) (mem : Memory) (k : Nat) :
    (t.read mem)[k]? = if k < t.len then mem[t.off + k]? else none := by
  unfold Slice.read
  rw [List.getElem?_take, List.getElem?_drop]

theorem index_eq_read (t : Slice) (mem : Memory) (i : Nat) :
    t.index mem i = (t.read mem)[i]? := by
  rw [read_getElem?]
  rfl

theorem read_length (t : Slice) (mem : Memory) (h : t.within mem) :
    (t.read mem).length = t.len := by
  unfold Slice.within at h
  unfold Slice.read
  rw [List.length_take, List.length_drop]
  omega

theorem within_decomp (t : Slice) (mem : Memory) (h : t.within mem) :
    mem = mem.take t.off ++ t.read mem ++ mem.drop (t.off + t.len) ∧
      t.off = (mem.take t.off).length := by
  unfold Slice.within at h
  refine ⟨?_, by rw [List.length_take]; omega⟩
  unfold Slice.read
  rw [List.append_assoc, ← List.drop_drop, List.take_append_drop, List.take_append_drop]

theorem write_length (t : Slice) (mem : Memory) (cs : List String) (h : t.within mem)
    (hl : cs.length = t.len) : (t.write mem cs).length = mem.length := by
  unfold Slice.within at h
  unfold Slice.write
  simp only [List.length_append, List.length_take, List.length_drop]
  omega

theorem write_getElem? (t : Slice) (mem : Memory) (cs : List String) (j : Nat)
    (h : t.within mem) (hl : cs.length = t.len) :
    (t.write mem cs)[j]? =
      if j < t.off then mem[j]? else if j < t.off + t.len then cs[j - t.off]? else mem[j]? := by
  unfold Slice.within at h
  unfold Slice.write
  have h1 : (mem.take t.off).length = t.off := by rw [List.length_take]; omega
  rw [List.append_assoc, List.getElem?_append, h1]
  by_cases hj : j < t.off
  · rw [if_pos hj, if_pos hj, List.getElem?_take_of_lt hj]
  · rw [if_neg hj, if_neg hj, List.getElem?_append, hl]
    by_cases hj2 : j < t.off + t.len
    · rw [if_pos hj2, if_pos (by omega)]
    · rw [if_neg hj2, if_neg (by omega), List.getElem?_drop]
      congr 1
      omega

theorem within_write (t o : Slice) (mem : Memory) (cs : List String) (h : t.within mem)
    (hl : cs.length = t.len) (ho : o.within mem) : o.within (t.write mem cs) := by
  unfold Slice.within at ho ⊢
  rw [write_length t mem cs h hl]
  exact ho

theorem read_write_same (t : Slice) (mem : Memory) (cs : List String) (h : t.within mem)
    (hl : cs.length = t.len) : t.read (t.write mem cs) = cs := by
  apply List.ext_getElem?
  intro k
  rw [read_getElem?, write_getElem? t mem cs _ h hl]
  by_cases hk : k < t.len
  · rw [if_pos hk, if_neg (by omega), if_pos (by omega)]
    congr 1
    omega
  · rw [if_neg hk]
    exact (List.getElem?_eq_none (by omega)).symm

theorem read_write_apart (t o : Slice) (mem : Memory) (cs : List String) (h : t.within mem)
    (hl : cs.length = t.len) (hap : t.apart o) : o.read (t.write mem cs) = o.read mem := by
  apply List.ext_getElem?
  intro k
  rw [read_getElem?, read_getElem?, write_getElem? t mem cs _ h hl]
  unfold Slice.apart at hap
  by_cases hk : k < o.len
  · rw [if_pos hk, if_pos hk]
    by_cases h1 : o.off + k < t.off
    · rw [if_pos h1]
    · rw [if_neg h1]
      by_cases h2 : o.off + k < t.off + t.len
      · exfalso; omega
      · rw [if_neg h2]
  · rw [if_neg hk, if_neg hk]

theorem write_read_self (t : Slice) (mem : Memory) (h : t.within mem) :
    t.write mem (t.read mem) = mem := by
  unfold Slice.write
  exact (within_decomp t mem h).1.symm

theorem apart_symm {t o : Slice} (h : t.apart o) : o.apart t := by
  unfold Slice.apart at h ⊢
  omega

/-! ## What the sort leaves in the memory -/

theorem insertionSort_eq (t : Slice) (mem : Memory) (h : t.within mem) :
    sort.insertionSort t 0 t.len mem = some (t.write mem (sortedForm (t.read mem))) := by
  obtain ⟨hmem, hoff⟩ := within_decomp t mem h
  obtain ⟨s, hrun, hs, hp⟩ := insertionSort_spec t (mem.take t.off) (t.read mem)
    (mem.drop (t.off + t.len)) hoff (read_length t mem h).symm
  rw [← hmem] at hrun
  rw [hrun, sortedForm_of_sorted s _ hs hp]
  rfl

theorem Sort_eq (t : Slice) (mem : Memory) (h : t.within mem) :
    sort.Sort_ t mem = some (t.write mem (sortedForm (t.read mem))) :=
  insertionSort_eq t mem h

theorem Stable_eq (t : Slice) (mem : Memory) (h : t.within mem) :
    sort.Stable t mem = some (t.write mem (sortedForm (t.read mem))) :=
  insertionSort_eq t mem h

/-! ## The comparison loops -/

theorem sameLoop_spec (t o : Slice) (mem : Memory) (ht : t.within mem) (ho : o.within mem)
    (hlen : t.len = o.len) : ∀ (n i : Nat), i + n = t.len →
    Targets.sameLoop t o n i mem =
      some (decide ((t.read mem).drop i = (o.read mem).drop i)) := by
  have hlt := read_length t mem ht
  have hlo := read_length o mem ho
  intro n
  induction n with
  | zero =>
    intro i hi
    rw [List.drop_eq_nil_of_le (by omega), List.drop_eq_nil_of_le (by omega)]
    simp [Targets.sameLoop]
  | succ n ih =>
    intro i hi
    have hit : i < (t.read mem).length := by omega
    have hio : i < (o.read mem).length := by omega
    have hdt := List.drop_eq_getElem_cons hit
    have hdo := List.drop_eq_getElem_cons hio
    have hgt := List.getElem?_eq_getElem hit
    have hgo := List.getElem?_eq_getElem hio
    generalize (t.read mem)[i] = e at hdt hgt
    generalize (o.read mem)[i] = x at hdo hgo
    unfold Targets.sameLoop
    rw [index_eq_read, index_eq_read, hgt, hgo, hdt, hdo]
    simp only
    by_cases hex : e = x
    · rw [ih (i + 1) (by omega)]
      simp [hex]
    · simp [hex]

theorem isLessLoop_spec (t o : Slice) (mem : Memory) (ht : t.within mem) (ho : o.within mem)
    (hlen : t.len = o.len) : ∀ (n i : Nat), i + n = t.len →
    ∃ r, Targets.isLessLoop t o n i mem = some r ∧
      (r = true ↔ (t.read mem).drop i < (o.read mem).drop i) := by
  have hlt := read_length t mem ht
  have hlo := read_length o mem ho
  intro n
  induction n with
  | zero =>
    intro i hi
    rw [List.drop_eq_nil_of_le (by omega), List.drop_eq_nil_of_le (by omega)]
    exact ⟨false, by simp [Targets.isLessLoop], by simp⟩
  | succ n ih =>
    intro i hi
    have hit : i < (t.read mem).length := by omega
    have hio : i < (o.read mem).length := by omega
    have hdt := List.drop_eq_getElem_cons hit
    have hdo := List.drop_eq_getElem_cons hio
    have hgt := List.getElem?_eq_getElem hit
    have hgo := List.getElem?_eq_getElem hio
    generalize (t.read mem)[i] = e at hdt hgt
    generalize (o.read mem)[i] = x at hdo hgo
    unfold Targets.isLessLoop
    rw [index_eq_read, index_eq_read, hgt, hgo, hdt, hdo]
    simp only
    by_cases hex : e = x
    · obtain ⟨r, hr, hiff⟩ := ih (i + 1) (by omega)
      refine ⟨r, by simp [hex, hr], hiff.trans ?_⟩
      rw [hex]
      exact (List.Lex.cons_iff (r := (· < ·))).symm
    · refine ⟨strLess e x, by simp [hex], ?_⟩
      rw [strLess_iff_lt]
      constructor
      · intro h; exact List.Lex.rel h
      · intro h
        cases h with
        | cons h => exact absurd rfl hex
        | rel h => exact h

/-! ## What `Same` and `IsLess` compute, whatever the storage -/

theorem Same_of_length_ne (t o : Slice) (mem : Memory) (h : t.len ≠ o.len) :
    Targets.Same t o mem = some (false, mem) := by
  unfold Targets.Same
  simp [h]

theorem IsLess_of_length_lt (t o : Slice) (mem : Memory) (h : t.len < o.len) :
    Targets.IsLess t o mem = some (true, mem) := by
  unfold Targets.IsLess
  simp [h]

theorem IsLess_of_length_gt (t o : Slice) (mem : Memory) (h : o.len < t.len) :
    Targets.IsLess t o mem = some (false, mem) := by
  unfold Targets.IsLess
  rw [if_neg (by omega), if_pos h]

/-- On operands of one length `Same` sorts the receiver, then the argument, then compares
the two windows as the memory then holds them. -/
theorem Same_general (t o : Slice) (mem : Memory) (ht : t.within mem) (ho : o.within mem)
    (hlen : t.len = o.len) :
    ∃ mem1 mem2, mem1 = t.write mem (sortedForm (t.read mem)) ∧
      mem2 = o.write mem1 (sortedForm (o.read mem1)) ∧
      mem2.length = mem.length ∧
      Targets.Same t o mem = some (decide (t.read mem2 = o.read mem2), mem2) := by
  have hl1 : (sortedForm (t.read mem)).length = t.len := by
    rw [sortedForm_length, read_length t mem ht]
  have ho1 := within_write t o mem _ ht hl1 ho
  have ht1 := within_write t t mem _ ht hl1 ht
  have hl2 : (sortedForm (o.read (t.write mem (sortedForm (t.read mem))))).length = o.len := by
    rw [sortedForm_length, read_length o _ ho1]
  have ho2 := within_write o o _ _ ho1 hl2 ho1
  have ht2 := within_write o t _ _ ho1 hl2 ht1
  refine ⟨_, _, rfl, rfl, ?_, ?_⟩
  · rw [write_length o _ _ ho1 hl2, write_length t _ _ ht hl1]
  · unfold Targets.Same
    have hloop := sameLoop_spec t o _ ht2 ho2 hlen t.len 0 (by omega)
    simp only [List.drop_zero] at hloop
    simp only [hlen, bne_self_eq_false, Bool.false_eq_true, if_false, Stable_eq t mem ht,
      Stable_eq o _ ho1]
    rw [← hlen, hloop]

/-- On operands of one length `IsLess` sorts the receiver, then the argument, then compares
the two windows as the memory then holds them. -/
theorem IsLess_general (t o : Slice) (mem : Memory) (ht : t.within mem) (ho : o.within mem)
    (hlen : t.len = o.len) :
    ∃ mem1 mem2 r, mem1 = t.write mem (sortedForm (t.read mem)) ∧
      mem2 = o.write mem1 (sortedForm (o.read mem1)) ∧
      mem2.length = mem.length ∧
      Targets.IsLess t o mem = some (r, mem2) ∧
      (r = true ↔ t.read mem2 < o.read mem2) := by
  have hl1 : (sortedForm (t.read mem)).length = t.len := by
    rw [sortedForm_length, read_length t mem ht]
  have ho1 := within_write t o mem _ ht hl1 ho
  have ht1 := within_write t t mem _ ht hl1 ht
  have hl2 : (sortedForm (o.read (t.write mem (sortedForm (t.read mem))))).length = o.len := by
    rw [sortedForm_length, read_length o _ ho1]
  have ho2 := within_write o o _ _ ho1 hl2 ho1
  have ht2 := within_write o t _ _ ho1 hl2 ht1
  obtain ⟨r, hloop, hiff⟩ := isLessLoop_spec t o _ ht2 ho2 hlen t.len 0 (by omega)
  simp only [List.drop_zero] at hloop hiff
  refine ⟨_, _, r, rfl, rfl, ?_, ?_, hiff⟩
  · rw [write_length o _ _ ho1 hl2, write_length t _ _ ht hl1]
  · unfold Targets.IsLess
    rw [if_neg (by omega), if_neg (by omega)]
    simp only [Sort_eq t mem ht, Sort_eq o _ ho1, hloop]
/-! ## Lexicographic comparison, position by position -/

theorem lex_first_diff : ∀ (s u : List String) (i : Nat) (a b : String),
    (∀ j, j < i → s[j]? = u[j]?) → s[i]? = some a → u[i]? = some b → a ≠ b →
    (s < u ↔ a < b) := by
  intro s
  induction s with
  | nil => intro u i a b _ ha; simp at ha
  | cons e s ih =>
    intro u i a b hpre ha hb hab
    cases u with
    | nil => simp at hb
    | cons x u =>
      cases i with
      | zero =>
        simp only [List.getElem?_cons_zero, Option.some.injEq] at ha hb
        subst ha hb
        constructor
        · intro h
          cases h with
          | cons h => exact absurd rfl hab
          | rel h => exact h
        · intro h; exact List.Lex.rel h
      | succ i =>
        have h0 := hpre 0 (Nat.succ_pos i)
        simp only [List.getElem?_cons_zero, Option.some.injEq] at h0
        subst h0
        simp only [List.getElem?_cons_succ] at ha hb
        have hpre' : ∀ j, j < i → s[j]? = u[j]? := by
          intro j hj
          simpa using hpre (j + 1) (Nat.succ_lt_succ hj)
        exact (List.Lex.cons_iff (r := (· < ·))).trans (ih u i a b hpre' ha hb hab)

theorem exists_first_diff : ∀ (s u : List String), s.length = u.length → s ≠ u →
    ∃ (i : Nat) (a b : String),
      (∀ j, j < i → s[j]? = u[j]?) ∧ s[i]? = some a ∧ u[i]? = some b ∧ a ≠ b := by
  intro s
  induction s with
  | nil =>
    intro u hlen hne
    exact absurd (List.length_eq_zero.mp hlen.symm).symm hne
  | cons e s ih =>
    intro u hlen hne
    cases u with
    | nil => simp at hlen
    | cons x u =>
      by_cases hex : e = x
      · subst hex
        have hne' : s ≠ u := fun h => hne (by rw [h])
        obtain ⟨i, a, b, hpre, ha, hb, hab⟩ := ih u (by simpa using hlen) hne'
        refine ⟨i + 1, a, b, ?_, by simpa using ha, by simpa using hb, hab⟩
        intro j hj
        cases j with
        | zero => simp
        | succ j => simpa using hpre j (by omega)
      · exact ⟨0, e, x, by intro j hj; omega, by simp, by simp, hex⟩

/-! ## The two relations -/

theorem sortedForm_congr {A A1 : Targets} (h : A.Perm A1) : sortedForm A = sortedForm A1 :=
  (sortedForm_eq_iff_perm A A1).mpr h

theorem ranksBelow_congr {A A1 B B1 : Targets} (hA : A.Perm A1) (hB : B.Perm B1) :
    ranksBelow A B ↔ ranksBelow A1 B1 := by
  unfold ranksBelow
  rw [sortedForm_congr hA, sortedForm_congr hB, hA.length_eq, hB.length_eq]

theorem sameValues_congr {A A1 B B1 : Targets} (hA : A.Perm A1) (hB : B.Perm B1) :
    sameValues A B ↔ sameValues A1 B1 := by
  unfold sameValues
  rw [sortedForm_congr hA, sortedForm_congr hB, hA.length_eq, hB.length_eq]

theorem ranksBelow_irrefl (A : Targets) : ¬ ranksBelow A A := by
  unfold ranksBelow
  rintro (h | ⟨_, h⟩)
  · exact lt_irrefl _ h
  · exact lt_irrefl _ h

theorem ranksBelow_trans {A B C : Targets} (h1 : ranksBelow A B) (h2 : ranksBelow B C) :
    ranksBelow A C := by
  unfold ranksBelow at *
  rcases h1 with h1 | ⟨e1, h1⟩
  · rcases h2 with h2 | ⟨e2, _⟩
    · exact Or.inl (lt_trans h1 h2)
    · exact Or.inl (e2 ▸ h1)
  · rcases h2 with h2 | ⟨e2, h2⟩
    · exact Or.inl (e1 ▸ h2)
    · exact Or.inr ⟨e1.trans e2, lt_trans h1 h2⟩

theorem ranksBelow_trichotomy (A B : Targets) :
    (ranksBelow A B ∧ ¬ ranksBelow B A ∧ ¬ sameValues A B) ∨
    (¬ ranksBelow A B ∧ ranksBelow B A ∧ ¬ sameValues A B) ∨
    (¬ ranksBelow A B ∧ ¬ ranksBelow B A ∧ sameValues A B) := by
  unfold ranksBelow sameValues
  rcases Nat.lt_trichotomy A.length B.length with h | h | h
  · left
    refine ⟨Or.inl h, ?_, ?_⟩
    · rintro (h' | ⟨h', _⟩) <;> omega
    · rintro ⟨h', _⟩; omega
  · rcases lt_trichotomy (sortedForm A) (sortedForm B) with hs | hs | hs
    · left
      refine ⟨Or.inr ⟨h, hs⟩, ?_, ?_⟩
      · rintro (h' | ⟨_, h'⟩)
        · omega
        · exact lt_asymm hs h'
      · rintro ⟨_, h'⟩; exact absurd h' (ne_of_lt hs)
    · right; right
      refine ⟨?_, ?_, h, hs⟩
      · rintro (h' | ⟨_, h'⟩)
        · omega
        · exact absurd hs (ne_of_lt h')
      · rintro (h' | ⟨_, h'⟩)
        · omega
        · exact absurd hs.symm (ne_of_lt h')
    · right; left
      refine ⟨?_, Or.inr ⟨h.symm, hs⟩, ?_⟩
      · rintro (h' | ⟨_, h'⟩)
        · omega
        · exact lt_asymm hs h'
      · rintro ⟨_, h'⟩; exact absurd h'.symm (ne_of_lt hs)
  · right; left
    refine ⟨?_, Or.inl h, ?_⟩
    · rintro (h' | ⟨h', _⟩) <;> omega
    · rintro ⟨h', _⟩; omega


theorem sortedForm_idem (A : Targets) : sortedForm (sortedForm A) = sortedForm A :=
  sortedForm_congr (sortedForm_perm A)


/-! ## Operands that do not partly overlap -/

theorem within_of_length {t : Slice} {mem mem2 : Memory} (h : t.within mem)
    (hl : mem2.length = mem.length) : t.within mem2 := by
  unfold Slice.within at h ⊢
  omega

/-- Sorting the window of `t` and then the window of `o`, when the two do not partly
overlap: each ends up holding its own sorted form, and a window apart from both is left as
it was. -/
theorem sort_both_unshared (t o : Slice) (mem : Memory) (ht : t.within mem)
    (ho : o.within mem) (hu : t.unshared o) (mem1 mem2 : Memory)
    (h1 : mem1 = t.write mem (sortedForm (t.read mem)))
    (h2 : mem2 = o.write mem1 (sortedForm (o.read mem1))) :
    t.read mem2 = sortedForm (t.read mem) ∧ o.read mem2 = sortedForm (o.read mem) ∧
      ∀ w : Slice, t.apart w → o.apart w → w.read mem2 = w.read mem := by
  have hl1 : (sortedForm (t.read mem)).length = t.len := by
    rw [sortedForm_length, read_length t mem ht]
  have ho1 : o.within mem1 := h1 ▸ within_write t o mem _ ht hl1 ho
  have hl2 : (sortedForm (o.read mem1)).length = o.len := by
    rw [sortedForm_length, read_length o _ ho1]
  have hframe : ∀ w : Slice, t.apart w → o.apart w → w.read mem2 = w.read mem := by
    intro w htw how
    rw [h2, read_write_apart o w mem1 _ ho1 hl2 how, h1,
      read_write_apart t w mem _ ht hl1 htw]
  have hro : o.read mem2 = sortedForm (o.read mem1) := by
    rw [h2, read_write_same o mem1 _ ho1 hl2]
  rcases hu with heq | hap
  · subst heq
    have hr1 : t.read mem1 = sortedForm (t.read mem) := by
      rw [h1, read_write_same t mem _ ht hl1]
    rw [hr1, sortedForm_idem] at hro
    exact ⟨hro, hro, hframe⟩
  · have hr1 : o.read mem1 = o.read mem := by
      rw [h1, read_write_apart t o mem _ ht hl1 hap]
    refine ⟨?_, by rw [hro, hr1], hframe⟩
    rw [h2, read_write_apart o t mem1 _ ho1 hl2 (apart_symm hap), h1,
      read_write_same t mem _ ht hl1]

theorem Same_of_length_eq (t o : Slice) (mem : Memory) (ht : t.within mem)
    (ho : o.within mem) (hu : t.unshared o) (hlen : t.len = o.len) :
    ∃ mem2, Targets.Same t o mem =
        some (decide (sortedForm (t.read mem) = sortedForm (o.read mem)), mem2) ∧
      mem2.length = mem.length ∧
      t.read mem2 = sortedForm (t.read mem) ∧ o.read mem2 = sortedForm (o.read mem) ∧
      ∀ w : Slice, t.apart w → o.apart w → w.read mem2 = w.read mem := by
  obtain ⟨mem1, mem2, h1, h2, hl, hrun⟩ := Same_general t o mem ht ho hlen
  obtain ⟨hrt, hro, hframe⟩ := sort_both_unshared t o mem ht ho hu mem1 mem2 h1 h2
  rw [hrt, hro] at hrun
  exact ⟨mem2, hrun, hl, hrt, hro, hframe⟩

theorem IsLess_of_length_eq (t o : Slice) (mem : Memory) (ht : t.within mem)
    (ho : o.within mem) (hu : t.unshared o) (hlen : t.len = o.len) :
    ∃ r mem2, Targets.IsLess t o mem = some (r, mem2) ∧
      (r = true ↔ sortedForm (t.read mem) < sortedForm (o.read mem)) ∧
      mem2.length = mem.length ∧
      t.read mem2 = sortedForm (t.read mem) ∧ o.read mem2 = sortedForm (o.read mem) ∧
      ∀ w : Slice, t.apart w → o.apart w → w.read mem2 = w.read mem := by
  obtain ⟨mem1, mem2, r, h1, h2, hl, hrun, hiff⟩ := IsLess_general t o mem ht ho hlen
  obtain ⟨hrt, hro, hframe⟩ := sort_both_unshared t o mem ht ho hu mem1 mem2 h1 h2
  rw [hrt, hro] at hiff
  exact ⟨r, mem2, hrun, hiff, hl, hrt, hro, hframe⟩

/-- What a window unshared with both operands holds after a comparison that sorted them: a
permutation of what it held. -/
theorem read_perm_after (t o w : Slice) (mem mem2 : Memory)
    (hrt : t.read mem2 = sortedForm (t.read mem)) (hro : o.read mem2 = sortedForm (o.read mem))
    (hframe : ∀ w : Slice, t.apart w → o.apart w → w.read mem2 = w.read mem)
    (hwt : w.unshared t) (hwo : w.unshared o) : (w.read mem2).Perm (w.read mem) := by
  rcases hwt with h | h
  · subst h; rw [hrt]; exact sortedForm_perm _
  · rcases hwo with h' | h'
    · subst h'; rw [hro]; exact sortedForm_perm _
    · rw [hframe w (apart_symm h) (apart_symm h')]

/-- The boolean `Same` returns on operands that do not partly overlap, and what it leaves. -/
theorem Same_ret (t o : Slice) (mem : Memory) (ht : t.within mem) (ho : o.within mem)
    (hu : t.unshared o) :
    ∃ ret mem2, Targets.Same t o mem = some (ret, mem2) ∧
      (ret = true ↔ sameValues (t.read mem) (o.read mem)) ∧
      mem2.length = mem.length ∧
      ∀ w : Slice, w.unshared t → w.unshared o → (w.read mem2).Perm (w.read mem) := by
  have hlt := read_length t mem ht
  have hlo := read_length o mem ho
  by_cases hlen : t.len = o.len
  · obtain ⟨mem2, hrun, hl, hrt, hro, hframe⟩ := Same_of_length_eq t o mem ht ho hu hlen
    refine ⟨_, mem2, hrun, ?_, hl,
      fun w hwt hwo => read_perm_after t o w mem mem2 hrt hro hframe hwt hwo⟩
    unfold sameValues
    simp [hlt, hlo, hlen]
  · refine ⟨false, mem, Same_of_length_ne t o mem hlen, ?_, rfl, fun _ _ _ => List.Perm.refl _⟩
    unfold sameValues
    simp [hlt, hlo, hlen]

/-- The boolean `IsLess` returns on operands that do not partly overlap, and what it
leaves. -/
theorem IsLess_ret (t o : Slice) (mem : Memory) (ht : t.within mem) (ho : o.within mem)
    (hu : t.unshared o) :
    ∃ ret mem2, Targets.IsLess t o mem = some (ret, mem2) ∧
      (ret = true ↔ ranksBelow (t.read mem) (o.read mem)) ∧
      mem2.length = mem.length ∧
      ∀ w : Slice, w.unshared t → w.unshared o → (w.read mem2).Perm (w.read mem) := by
  have hlt := read_length t mem ht
  have hlo := read_length o mem ho
  unfold ranksBelow
  rw [hlt, hlo]
  rcases Nat.lt_trichotomy t.len o.len with h | h | h
  · exact ⟨true, mem, IsLess_of_length_lt t o mem h, by simp [h], rfl,
      fun _ _ _ => List.Perm.refl _⟩
  · obtain ⟨r, mem2, hrun, hiff, hl, hrt, hro, hframe⟩ :=
      IsLess_of_length_eq t o mem ht ho hu h
    refine ⟨r, mem2, hrun, ?_, hl,
      fun w hwt hwo => read_perm_after t o w mem mem2 hrt hro hframe hwt hwo⟩
    simp only [hiff, h, lt_irrefl, false_or, true_and]
  · refine ⟨false, mem, IsLess_of_length_gt t o mem h, ?_, rfl,
      fun _ _ _ => List.Perm.refl _⟩
    have h1 : ¬ t.len < o.len := by omega
    have h2 : ¬ t.len = o.len := by omega
    simp [h1, h2]

theorem unshared_refl (t : Slice) : t.unshared t := Or.inl rfl

theorem unshared_symm {t o : Slice} (h : t.unshared o) : o.unshared t := by
  rcases h with h | h
  · exact Or.inl h.symm
  · exact Or.inr (apart_symm h)

/-! ## Claims about `Same` and `IsLess` -/

/-- Counterexample to C1 as stated: in the array `["a", "b", "a"]` the slices `s[0:2]`
and `s[1:3]` hold `["a", "b"]` and `["b", "a"]`, a permutation of each other, and `Same`
returns false: sorting the argument rewrites the second element of the receiver, which is
left holding `["a", "a"]`. -/
theorem Same_overlap_counterexample :
    (⟨0, 2⟩ : Slice).read ["a", "b", "a"] = ["a", "b"] ∧
    (⟨1, 2⟩ : Slice).read ["a", "b", "a"] = ["b", "a"] ∧
    ((⟨1, 2⟩ : Slice).read ["a", "b", "a"]).Perm ((⟨0, 2⟩ : Slice).read ["a", "b", "a"]) ∧
    Targets.Same ⟨0, 2⟩ ⟨1, 2⟩ ["a", "b", "a"] = some (false, ["a", "a", "b"]) ∧
    (⟨0, 2⟩ : Slice).read ["a", "a", "b"] = ["a", "a"] := by
  decide

/-- C1, amended: for every two target collections `A` and `B` that do not partly overlap in
storage (they share no element of a backing array, or they are one and the same slice),
`A.Same(B)` returns, and it returns true if and only if `B` is a permutation of `A`;
equivalently, if and only if they have equal length and their ascending-sorted forms agree
at every position. -/
theorem Same_iff_perm (t o : Slice) (mem : Memory) (ht : t.within mem) (ho : o.within mem)
    (hu : t.unshared o) :
    ∃ ret mem2, Targets.Same t o mem = some (ret, mem2) ∧
      (ret = true ↔ (o.read mem).Perm (t.read mem)) ∧
      (ret = true ↔
        (t.read mem).length = (o.read mem).length ∧
          ∀ i : Nat, (sortedForm (t.read mem))[i]? = (sortedForm (o.read mem))[i]?) := by
  obtain ⟨ret, mem2, hrun, hiff, _, _⟩ := Same_ret t o mem ht ho hu
  unfold sameValues at hiff
  refine ⟨ret, mem2, hrun, ?_, ?_⟩
  · rw [hiff]
    constructor
    · rintro ⟨_, h⟩
      exact ((sortedForm_eq_iff_perm _ _).mp h).symm
    · intro h
      exact ⟨h.length_eq.symm, (sortedForm_eq_iff_perm _ _).mpr h.symm⟩
  · rw [hiff]
    constructor
    · rintro ⟨hl, h⟩
      exact ⟨hl, fun i => by rw [h]⟩
    · rintro ⟨hl, h⟩
      exact ⟨hl, List.ext_getElem? h⟩

/-- Witness for C1, amended: `["10.0.0.1", "10.0.0.2"]` and `["10.0.0.2", "10.0.0.1"]`, held
in separate storage, are `Same`; both are left sorted. -/
theorem Same_iff_perm_witness :
    (⟨0, 2⟩ : Slice).read ["10.0.0.1", "10.0.0.2", "10.0.0.2", "10.0.0.1"] =
      ["10.0.0.1", "10.0.0.2"] ∧
    (⟨2, 2⟩ : Slice).read ["10.0.0.1", "10.0.0.2", "10.0.0.2", "10.0.0.1"] =
      ["10.0.0.2", "10.0.0.1"] ∧
    Targets.Same ⟨0, 2⟩ ⟨2, 2⟩ ["10.0.0.1", "10.0.0.2", "10.0.0.2", "10.0.0.1"] =
      some (true, ["10.0.0.1", "10.0.0.2", "10.0.0.1", "10.0.0.2"]) ∧
    ∃ ret mem2,
      Targets.Same ⟨0, 2⟩ ⟨2, 2⟩ ["10.0.0.1", "10.0.0.2", "10.0.0.2", "10.0.0.1"] =
        some (ret, mem2) ∧
      (ret = true ↔ (["10.0.0.2", "10.0.0.1"] : Targets).Perm ["10.0.0.1", "10.0.0.2"]) :=
  ⟨by decide, by decide, by decide,
    (Same_iff_perm ⟨0, 2⟩ ⟨2, 2⟩ ["10.0.0.1", "10.0.0.2", "10.0.0.2", "10.0.0.1"]
      (by decide) (by decide) (by decide)).elim
      fun ret h => h.elim fun mem2 h2 => ⟨ret, mem2, h2.1, h2.2.1⟩⟩

/-- C2: for two target collections of different lengths, `A.IsLess(B)` returns true exactly
when `A` is the shorter one, whatever the values are and wherever the two are stored (and it
returns before any sort, so the memory is left as it was). -/
theorem IsLess_of_length_ne (t o : Slice) (mem : Memory) (h : t.len ≠ o.len) :
    Targets.IsLess t o mem = some (decide (t.len < o.len), mem) := by
  rcases Nat.lt_or_gt_of_ne h with hl | hl
  · rw [IsLess_of_length_lt t o mem hl]; simp [hl]
  · rw [IsLess_of_length_gt t o mem hl]
    have : ¬ t.len < o.len := by omega
    simp [this]

/-- Witness for C2: `["z"].IsLess(["a", "a"])` is true and `["a", "a"].IsLess(["z"])` is
false. -/
theorem IsLess_of_length_ne_witness :
    ((⟨0, 1⟩ : Slice).read ["z", "a", "a"] = ["z"] ∧
      (⟨1, 2⟩ : Slice).read ["z", "a", "a"] = ["a", "a"]) ∧
    ((⟨0, 1⟩ : Slice).len ≠ (⟨1, 2⟩ : Slice).len ∧
      Targets.IsLess ⟨0, 1⟩ ⟨1, 2⟩ ["z", "a", "a"] = some (true, ["z", "a", "a"])) ∧
    ((⟨1, 2⟩ : Slice).len ≠ (⟨0, 1⟩ : Slice).len ∧
      Targets.IsLess ⟨1, 2⟩ ⟨0, 1⟩ ["z", "a", "a"] = some (false, ["z", "a", "a"])) :=
  ⟨by decide,
    ⟨by decide, IsLess_of_length_ne ⟨0, 1⟩ ⟨1, 2⟩ ["z", "a", "a"] (by decide)⟩,
    ⟨by decide, IsLess_of_length_ne ⟨1, 2⟩ ⟨0, 1⟩ ["z", "a", "a"] (by decide)⟩⟩

/-- Counterexample to C3 as stated: in the array `["a", "b", "a"]` the slices `s[0:2]`
and `s[1:3]` hold `["a", "b"]` and `["b", "a"]`, of equal length and with equal sorted forms,
and `IsLess` returns true where the claim says false. -/
theorem IsLess_overlap_counterexample :
    (⟨0, 2⟩ : Slice).read ["a", "b", "a"] = ["a", "b"] ∧
    (⟨1, 2⟩ : Slice).read ["a", "b", "a"] = ["b", "a"] ∧
    sortedForm ((⟨0, 2⟩ : Slice).read ["a", "b", "a"]) =
      sortedForm ((⟨1, 2⟩ : Slice).read ["a", "b", "a"]) ∧
    Targets.IsLess ⟨0, 2⟩ ⟨1, 2⟩ ["a", "b", "a"] = some (true, ["a", "a", "b"]) := by
  decide

/-- C3, amended: for two target collections of equal length that do not partly overlap in
storage, `A.IsLess(B)` returns the lexicographic comparison of the ascending-sorted forms:
false when the sorted forms are equal (both empty included); otherwise there is a first
position at which they differ, and the result is whether the element of `A` there is the
smaller string.  Both operands are left holding their sorted forms. -/
theorem IsLess_of_length_eq_lex (t o : Slice) (mem : Memory) (ht : t.within mem)
    (ho : o.within mem) (hu : t.unshared o) (h : t.len = o.len) :
    ∃ r mem2, Targets.IsLess t o mem = some (r, mem2) ∧
      t.read mem2 = sortedForm (t.read mem) ∧ o.read mem2 = sortedForm (o.read mem) ∧
      (sortedForm (t.read mem) = sortedForm (o.read mem) → r = false) ∧
      (∀ (i : Nat) (a b : String),
        (∀ j, j < i → (sortedForm (t.read mem))[j]? = (sortedForm (o.read mem))[j]?) →
        (sortedForm (t.read mem))[i]? = some a → (sortedForm (o.read mem))[i]? = some b →
        a ≠ b → r = strLess a b) ∧
      (sortedForm (t.read mem) ≠ sortedForm (o.read mem) →
        ∃ (i : Nat) (a b : String),
          (∀ j, j < i → (sortedForm (t.read mem))[j]? = (sortedForm (o.read mem))[j]?) ∧
          (sortedForm (t.read mem))[i]? = some a ∧
          (sortedForm (o.read mem))[i]? = some b ∧ a ≠ b) := by
  have hl : (sortedForm (t.read mem)).length = (sortedForm (o.read mem)).length := by
    rw [sortedForm_length, sortedForm_length, read_length t mem ht, read_length o mem ho, h]
  obtain ⟨r, mem2, hrun, hiff, _, hrt, hro, _⟩ := IsLess_of_length_eq t o mem ht ho hu h
  refine ⟨r, mem2, hrun, hrt, hro, ?_, ?_, exists_first_diff _ _ hl⟩
  · intro heq
    have : ¬ sortedForm (t.read mem) < sortedForm (o.read mem) := by
      rw [heq]; exact lt_irrefl _
    cases hrr : r with
    | false => rfl
    | true => exact absurd (hiff.mp hrr) this
  · intro i a b hpre ha hb hab
    have hlex := lex_first_diff _ _ i a b hpre ha hb hab
    have : (r = true ↔ strLess a b = true) := by rw [hiff, hlex, strLess_iff_lt]
    cases hrr : r <;> cases hs : strLess a b <;> simp [hrr, hs] at this ⊢

/-- Witness for C3, amended: on `["c", "a", "b"]` and `["b", "a", "d"]`, held one after the
other, the sorted forms are `["a", "b", "c"]` and `["a", "b", "d"]`, which first differ at the
last position. -/
theorem IsLess_of_length_eq_lex_witness :
    (⟨0, 3⟩ : Slice).within ["c", "a", "b", "b", "a", "d"] ∧
    (⟨3, 3⟩ : Slice).within ["c", "a", "b", "b", "a", "d"] ∧
    (⟨0, 3⟩ : Slice).unshared ⟨3, 3⟩ ∧
    Targets.IsLess ⟨0, 3⟩ ⟨3, 3⟩ ["c", "a", "b", "b", "a", "d"] =
      some (true, ["a", "b", "c", "a", "b", "d"]) ∧
    ∃ r mem2, Targets.IsLess ⟨0, 3⟩ ⟨3, 3⟩ ["c", "a", "b", "b", "a", "d"] = some (r, mem2) ∧
      r = strLess "c" "d" :=
  ⟨by decide, by decide, by decide, by decide,
    (IsLess_of_length_eq_lex ⟨0, 3⟩ ⟨3, 3⟩ ["c", "a", "b", "b", "a", "d"]
      (by decide) (by decide) (by decide) (by decide)).elim
      fun r h => h.elim fun mem2 h2 =>
        ⟨r, mem2, h2.1,
          h2.2.2.2.2.1 2 "c" "d" (by decide) (by decide) (by decide) (by decide)⟩⟩

theorem IsLess_step (t o : Slice) (mem0 mem : Memory) (ht : t.within mem) (ho : o.within mem)
    (hu : t.unshared o) (hpt : (t.read mem).Perm (t.read mem0))
    (hpo : (o.read mem).Perm (o.read mem0)) :
    ∃ ret mem2, Targets.IsLess t o mem = some (ret, mem2) ∧
      (ret = true ↔ ranksBelow (t.read mem0) (o.read mem0)) ∧
      mem2.length = mem.length ∧
      ∀ w : Slice, w.unshared t → w.unshared o → (w.read mem2).Perm (w.read mem) := by
  obtain ⟨ret, mem2, hrun, hiff, hl, hperm⟩ := IsLess_ret t o mem ht ho hu
  exact ⟨ret, mem2, hrun, hiff.trans (ranksBelow_congr hpt hpo), hl, hperm⟩

theorem Same_step (t o : Slice) (mem0 mem : Memory) (ht : t.within mem) (ho : o.within mem)
    (hu : t.unshared o) (hpt : (t.read mem).Perm (t.read mem0))
    (hpo : (o.read mem).Perm (o.read mem0)) :
    ∃ ret mem2, Targets.Same t o mem = some (ret, mem2) ∧
      (ret = true ↔ sameValues (t.read mem0) (o.read mem0)) ∧
      mem2.length = mem.length ∧
      ∀ w : Slice, w.unshared t → w.unshared o → (w.read mem2).Perm (w.read mem) := by
  obtain ⟨ret, mem2, hrun, hiff, hl, hperm⟩ := Same_ret t o mem ht ho hu
  exact ⟨ret, mem2, hrun, hiff.trans (sameValues_congr hpt hpo), hl, hperm⟩

theorem exactly_one_of_trichotomy {p q r : Prop} {x y z : Bool}
    (hx : x = true ↔ p) (hy : y = true ↔ q) (hz : z = true ↔ r)
    (h : (p ∧ ¬ q ∧ ¬ r) ∨ (¬ p ∧ q ∧ ¬ r) ∨ (¬ p ∧ ¬ q ∧ r)) :
    (x = true ∧ y = false ∧ z = false) ∨ (x = false ∧ y = true ∧ z = false) ∨
      (x = false ∧ y = false ∧ z = true) := by
  simp only [← Bool.not_eq_true, hx, hy, hz]
  exact h

/-- Counterexample to C4 as stated: in the array `["b", "b", "a"]` with `A = s[0:2]` and
`B = s[1:3]`, each of `A.IsLess(B)`, `B.IsLess(A)` and `A.Same(B)` returns false, so none of
the three holds. -/
theorem IsLess_trichotomy_overlap_counterexample :
    (⟨0, 2⟩ : Slice).read ["b", "b", "a"] = ["b", "b"] ∧
    (⟨1, 2⟩ : Slice).read ["b", "b", "a"] = ["b", "a"] ∧
    Targets.IsLess ⟨0, 2⟩ ⟨1, 2⟩ ["b", "b", "a"] = some (false, ["b", "a", "b"]) ∧
    Targets.IsLess ⟨1, 2⟩ ⟨0, 2⟩ ["b", "b", "a"] = some (false, ["a", "b", "b"]) ∧
    Targets.Same ⟨0, 2⟩ ⟨1, 2⟩ ["b", "b", "a"] = some (false, ["b", "a", "b"]) := by
  decide

/-- C4, amended: on target collections no two of which partly overlap in storage, `IsLess`
is a strict total order up to `Same`.  For such `A`, `B`, `C`: `A.IsLess(A)` is false; if
`A.IsLess(B)` and `B.IsLess(C)` are true then so is `A.IsLess(C)`; and exactly one of
`A.IsLess(B)`, `B.IsLess(A)`, `A.Same(B)` is true.  The last two conjuncts state
transitivity and the trichotomy again for calls made one after another, each on the memory
the previous call left. -/
theorem IsLess_strict_total_order (a b c : Slice) (mem : Memory)
    (ha : a.within mem) (hb : b.within mem) (hc : c.within mem)
    (hab : a.unshared b) (hbc : b.unshared c) (hac : a.unshared c) :
    (∃ m, Targets.IsLess a a mem = some (false, m)) ∧
    (∃ r1 m1 r2 m2 r3 m3, Targets.IsLess a b mem = some (r1, m1) ∧
      Targets.IsLess b c mem = some (r2, m2) ∧ Targets.IsLess a c mem = some (r3, m3) ∧
      (r1 = true → r2 = true → r3 = true)) ∧
    (∃ r1 m1 r2 m2 r3 m3, Targets.IsLess a b mem = some (r1, m1) ∧
      Targets.IsLess b a mem = some (r2, m2) ∧ Targets.Same a b mem = some (r3, m3) ∧
      ((r1 = true ∧ r2 = false ∧ r3 = false) ∨ (r1 = false ∧ r2 = true ∧ r3 = false) ∨
        (r1 = false ∧ r2 = false ∧ r3 = true))) ∧
    (∃ r1 m1 r2 m2 r3 m3, Targets.IsLess a b mem = some (r1, m1) ∧
      Targets.IsLess b c m1 = some (r2, m2) ∧ Targets.IsLess a c m2 = some (r3, m3) ∧
      (r1 = true → r2 = true → r3 = true)) ∧
    (∃ r1 m1 r2 m2 r3 m3, Targets.IsLess a b mem = some (r1, m1) ∧
      Targets.IsLess b a m1 = some (r2, m2) ∧ Targets.Same a b m2 = some (r3, m3) ∧
      ((r1 = true ∧ r2 = false ∧ r3 = false) ∨ (r1 = false ∧ r2 = true ∧ r3 = false) ∨
        (r1 = false ∧ r2 = false ∧ r3 = true))) := by
  have hba := unshared_symm hab
  have hcb := unshared_symm hbc
  have hca := unshared_symm hac
  obtain ⟨r1, m1, h1, i1, l1, p1⟩ := IsLess_ret a b mem ha hb hab
  refine ⟨?_, ?_, ?_, ?_, ?_⟩
  · obtain ⟨r, m, h, i, _, _⟩ := IsLess_ret a a mem ha ha (unshared_refl a)
    have : r = false := by
      rw [← Bool.not_eq_true, i]
      exact ranksBelow_irrefl _
    exact ⟨m, this ▸ h⟩
  · obtain ⟨r2, m2, h2, i2, _, _⟩ := IsLess_ret b c mem hb hc hbc
    obtain ⟨r3, m3, h3, i3, _, _⟩ := IsLess_ret a c mem ha hc hac
    exact ⟨r1, m1, r2, m2, r3, m3, h1, h2, h3,
      fun x y => i3.mpr (ranksBelow_trans (i1.mp x) (i2.mp y))⟩
  · obtain ⟨r2, m2, h2, i2, _, _⟩ := IsLess_ret b a mem hb ha hba
    obtain ⟨r3, m3, h3, i3, _, _⟩ := Same_ret a b mem ha hb hab
    exact ⟨r1, m1, r2, m2, r3, m3, h1, h2, h3,
      exactly_one_of_trichotomy i1 i2 i3 (ranksBelow_trichotomy _ _)⟩
  · obtain ⟨r2, m2, h2, i2, l2, p2⟩ := IsLess_step b c mem m1
      (within_of_length hb l1) (within_of_length hc l1) hbc
      (p1 b hba (unshared_refl b)) (p1 c hca hcb)
    obtain ⟨r3, m3, h3, i3, _, _⟩ := IsLess_step a c mem m2
      (within_of_length ha (l2.trans l1)) (within_of_length hc (l2.trans l1)) hac
      ((p2 a hab hac).trans (p1 a (unshared_refl a) hab))
      ((p2 c hcb (unshared_refl c)).trans (p1 c hca hcb))
    exact ⟨r1, m1, r2, m2, r3, m3, h1, h2, h3,
      fun x y => i3.mpr (ranksBelow_trans (i1.mp x) (i2.mp y))⟩
  · obtain ⟨r2, m2, h2, i2, l2, p2⟩ := IsLess_step b a mem m1
      (within_of_length hb l1) (within_of_length ha l1) hba
      (p1 b hba (unshared_refl b)) (p1 a (unshared_refl a) hab)
    obtain ⟨r3, m3, h3, i3, _, _⟩ := Same_step a b mem m2
      (within_of_length ha (l2.trans l1)) (within_of_length hb (l2.trans l1)) hab
      ((p2 a hab (unshared_refl a)).trans (p1 a (unshared_refl a) hab))
      ((p2 b (unshared_refl b) hba).trans (p1 b hba (unshared_refl b)))
    exact ⟨r1, m1, r2, m2, r3, m3, h1, h2, h3,
      exactly_one_of_trichotomy i1 i2 i3 (ranksBelow_trichotomy _ _)⟩

/-- Witness for C4, amended: `["b"]`, `["a", "c"]` and `["a", "d"]`, held one after the
other: the first is less than the second by length, the second less than the third by
content, and the first less than the third. -/
theorem IsLess_strict_total_order_witness :
    ((⟨0, 1⟩ : Slice).within ["b", "a", "c", "a", "d"] ∧
      (⟨1, 2⟩ : Slice).within ["b", "a", "c", "a", "d"] ∧
      (⟨3, 2⟩ : Slice).within ["b", "a", "c", "a", "d"] ∧
      (⟨0, 1⟩ : Slice).unshared ⟨1, 2⟩ ∧ (⟨1, 2⟩ : Slice).unshared ⟨3, 2⟩ ∧
      (⟨0, 1⟩ : Slice).unshared ⟨3, 2⟩) ∧
    (Targets.IsLess ⟨0, 1⟩ ⟨1, 2⟩ ["b", "a", "c", "a", "d"] =
        some (true, ["b", "a", "c", "a", "d"]) ∧
      Targets.IsLess ⟨1, 2⟩ ⟨3, 2⟩ ["b", "a", "c", "a", "d"] =
        some (true, ["b", "a", "c", "a", "d"]) ∧
      Targets.IsLess ⟨0, 1⟩ ⟨3, 2⟩ ["b", "a", "c", "a", "d"] =
        some (true, ["b", "a", "c", "a", "d"])) ∧
    ∃ m, Targets.IsLess ⟨0, 1⟩ ⟨0, 1⟩ ["b", "a", "c", "a", "d"] = some (false, m) :=
  ⟨by decide, by decide,
    (IsLess_strict_total_order ⟨0, 1⟩ ⟨1, 2⟩ ⟨3, 2⟩ ["b", "a", "c", "a", "d"]
      (by decide) (by decide) (by decide) (by decide) (by decide) (by decide)).1⟩

theorem ascending_of_sorted {s : List String} (h : s.Sorted (· ≤ ·)) :
    s.Pairwise (fun a b => strLess b a = false) :=
  List.Pairwise.imp (fun hab => (strLess_eq_false_iff _ _).mpr hab) h

/-- Counterexample to C5 as stated: in the array `["a", "b", "a"]` the slices `s[0:2]` and
`s[1:3]` have equal length; after `Same`, and after `IsLess`, the receiver holds
`["a", "a"]`, which is not a permutation of the `["a", "b"]` it held. -/
theorem sorts_overlap_counterexample :
    (⟨0, 2⟩ : Slice).read ["a", "b", "a"] = ["a", "b"] ∧
    Targets.Same ⟨0, 2⟩ ⟨1, 2⟩ ["a", "b", "a"] = some (false, ["a", "a", "b"]) ∧
    Targets.IsLess ⟨0, 2⟩ ⟨1, 2⟩ ["a", "b", "a"] = some (true, ["a", "a", "b"]) ∧
    (⟨0, 2⟩ : Slice).read ["a", "a", "b"] = ["a", "a"] ∧
    ¬ ((⟨0, 2⟩ : Slice).read ["a", "a", "b"]).Perm ((⟨0, 2⟩ : Slice).read ["a", "b", "a"]) := by
  decide

/-- C5, amended: for two target collections of equal length that do not partly overlap in
storage, after a call to `Same` and after a call to `IsLess`, whatever boolean was returned,
the receiver holds a permutation of its own original contents in ascending order (no element
is followed by a smaller one), and so does the argument; a slice that shares no storage with
either operand holds what it held. -/
theorem comparison_sorts_both_operands (t o : Slice) (mem : Memory) (ht : t.within mem)
    (ho : o.within mem) (hu : t.unshared o) (h : t.len = o.len) :
    (∃ ret mem2, Targets.Same t o mem = some (ret, mem2) ∧
      (t.read mem2).Perm (t.read mem) ∧
      (t.read mem2).Pairwise (fun a b => strLess b a = false) ∧
      (o.read mem2).Perm (o.read mem) ∧
      (o.read mem2).Pairwise (fun a b => strLess b a = false) ∧
      mem2.length = mem.length ∧
      ∀ w : Slice, t.apart w → o.apart w → w.read mem2 = w.read mem) ∧
    (∃ ret mem2, Targets.IsLess t o mem = some (ret, mem2) ∧
      (t.read mem2).Perm (t.read mem) ∧
      (t.read mem2).Pairwise (fun a b => strLess b a = false) ∧
      (o.read mem2).Perm (o.read mem) ∧
      (o.read mem2).Pairwise (fun a b => strLess b a = false) ∧
      mem2.length = mem.length ∧
      ∀ w : Slice, t.apart w → o.apart w → w.read mem2 = w.read mem) := by
  constructor
  · obtain ⟨mem2, hrun, hl, hrt, hro, hframe⟩ := Same_of_length_eq t o mem ht ho hu h
    refine ⟨_, mem2, hrun, ?_, ?_, ?_, ?_, hl, hframe⟩
    · rw [hrt]; exact sortedForm_perm _
    · rw [hrt]; exact ascending_of_sorted (sortedForm_sorted _)
    · rw [hro]; exact sortedForm_perm _
    · rw [hro]; exact ascending_of_sorted (sortedForm_sorted _)
  · obtain ⟨r, mem2, hrun, _, hl, hrt, hro, hframe⟩ :=
      IsLess_of_length_eq t o mem ht ho hu h
    refine ⟨r, mem2, hrun, ?_, ?_, ?_, ?_, hl, hframe⟩
    · rw [hrt]; exact sortedForm_perm _
    · rw [hrt]; exact ascending_of_sorted (sortedForm_sorted _)
    · rw [hro]; exact sortedForm_perm _
    · rw [hro]; exact ascending_of_sorted (sortedForm_sorted _)

/-- Witness for C5, amended: `["b", "a"]` and `["a", "c"]`, held one after the other and
followed by `"z"`, are left as `["a", "b"]` and `["a", "c"]` by `Same` (which returns false)
and by `IsLess` (which returns true); the `"z"` stays. -/
theorem comparison_sorts_both_operands_witness :
    ((⟨0, 2⟩ : Slice).within ["b", "a", "a", "c", "z"] ∧
      (⟨2, 2⟩ : Slice).within ["b", "a", "a", "c", "z"] ∧
      (⟨0, 2⟩ : Slice).unshared ⟨2, 2⟩ ∧ (⟨0, 2⟩ : Slice).len = (⟨2, 2⟩ : Slice).len) ∧
    Targets.Same ⟨0, 2⟩ ⟨2, 2⟩ ["b", "a", "a", "c", "z"] =
      some (false, ["a", "b", "a", "c", "z"]) ∧
    Targets.IsLess ⟨0, 2⟩ ⟨2, 2⟩ ["b", "a", "a", "c", "z"] =
      some (true, ["a", "b", "a", "c", "z"]) ∧
    ∃ ret mem2, Targets.Same ⟨0, 2⟩ ⟨2, 2⟩ ["b", "a", "a", "c", "z"] = some (ret, mem2) ∧
      ((⟨0, 2⟩ : Slice).read mem2).Perm ["b", "a"] ∧
      ((⟨2, 2⟩ : Slice).read mem2).Perm ["a", "c"] :=
  ⟨by decide, by decide, by decide,
    (comparison_sorts_both_operands ⟨0, 2⟩ ⟨2, 2⟩ ["b", "a", "a", "c", "z"]
      (by decide) (by decide) (by decide) (by decide)).1.elim
      fun ret h => h.elim fun mem2 h2 => ⟨ret, mem2, h2.1, h2.2.1, h2.2.2.2.1⟩⟩

/-- C6: for two target collections of different lengths, wherever the two are stored,
`A.Same(B)` returns false and leaves the memory, and so both collections, exactly as it was,
values and order: nothing is sorted. -/
theorem Same_length_mismatch_untouched (t o : Slice) (mem : Memory) (h : t.len ≠ o.len) :
    Targets.Same t o mem = some (false, mem) := by
  unfold Targets.Same
  have hne : (t.len != o.len) = true := by simpa using h
  rw [if_pos hne]

/-- Witness for C6: the unsorted `["b", "a"]` compared with `["c"]` stays `["b", "a"]`. -/
theorem Same_length_mismatch_untouched_witness :
    ((⟨0, 2⟩ : Slice).read ["b", "a", "c"] = ["b", "a"] ∧
      (⟨2, 1⟩ : Slice).read ["b", "a", "c"] = ["c"]) ∧
    (⟨0, 2⟩ : Slice).len ≠ (⟨2, 1⟩ : Slice).len ∧
    Targets.Same ⟨0, 2⟩ ⟨2, 1⟩ ["b", "a", "c"] = some (false, ["b", "a", "c"]) :=
  ⟨by decide, by decide, Same_length_mismatch_untouched ⟨0, 2⟩ ⟨2, 1⟩ ["b", "a", "c"] (by decide)⟩

/-! ## Trailing dots -/

theorem HasSuffix_dot_of_rev_cons (s : String) (c : Char) (r : List Char)
    (h : s.data.reverse = c :: r) :
    strings.HasSuffix s "." = decide (c = '.') ∧ s.data = r.reverse ++ [c] := by
  have hs : s.data = r.reverse ++ [c] := by
    have := congrArg List.reverse h
    simpa using this
  refine ⟨?_, hs⟩
  unfold strings.HasSuffix
  have hd : ".".data = ['.'] := rfl
  rw [hd, hs]
  simp

theorem TrimSuffix_dot_cases (s : String) :
    (trailingDots s = 0 ∧ s.data.getLast? ≠ some '.' ∧ strings.TrimSuffix s "." = s) ∨
    (∃ u : String, s = u ++ "." ∧ strings.TrimSuffix s "." = u ∧
      trailingDots s = trailingDots u + 1) := by
  cases hrev : s.data.reverse with
  | nil =>
    left
    have hs : s.data = [] := by simpa using hrev
    refine ⟨by simp [trailingDots, hrev], by simp [hs], ?_⟩
    unfold strings.TrimSuffix strings.HasSuffix
    have hd : ".".data = ['.'] := rfl
    rw [hd, hs]
    simp
  | cons c r =>
    obtain ⟨hsuf, hs⟩ := HasSuffix_dot_of_rev_cons s c r hrev
    by_cases hc : c = '.'
    · right
      subst hc
      refine ⟨⟨r.reverse⟩, ?_, ?_, ?_⟩
      · apply String.ext
        rw [hs]
        rfl
      · unfold strings.TrimSuffix
        rw [hsuf]
        simp only [decide_True, if_true]
        rw [hs]
        simp
      · simp [trailingDots, hrev]
    · left
      refine ⟨by simp [trailingDots, hrev, hc], ?_, ?_⟩
      · rw [hs]
        simp [hc]
      · unfold strings.TrimSuffix
        rw [hsuf]
        simp [hc]

theorem trailingDots_append_dot (s : String) : trailingDots (s ++ ".") = trailingDots s + 1 := by
  have hd : (s ++ ".").data = s.data ++ ['.'] := rfl
  simp [trailingDots, hd]

theorem TrimSuffix_append_dot (s : String) : strings.TrimSuffix (s ++ ".") "." = s := by
  rcases TrimSuffix_dot_cases (s ++ ".") with ⟨h, _, _⟩ | ⟨u, hu, ht, _⟩
  · rw [trailingDots_append_dot] at h; omega
  · rw [ht]
    have := congrArg String.data hu
    have h1 : (s ++ ".").data = s.data ++ ['.'] := rfl
    have h2 : (u ++ ".").data = u.data ++ ['.'] := rfl
    rw [h1, h2] at this
    exact (String.ext (List.append_cancel_right this)).symm

theorem TrimSuffix_of_no_dot (s : String) (h : s.data.getLast? ≠ some '.') :
    strings.TrimSuffix s "." = s := by
  rcases TrimSuffix_dot_cases s with ⟨_, _, ht⟩ | ⟨u, hu, _, _⟩
  · exact ht
  · exfalso
    apply h
    rw [hu]
    have h2 : (u ++ ".").data = u.data ++ ['.'] := rfl
    rw [h2]
    simp

theorem TrimSuffix_fixed_iff (s : String) :
    strings.TrimSuffix s "." = s ↔ trailingDots s = 0 := by
  rcases TrimSuffix_dot_cases s with ⟨h0, _, ht⟩ | ⟨u, hu, ht, hn⟩
  · simp [h0, ht]
  · constructor
    · intro h
      rw [ht] at h
      have := congrArg trailingDots h
      omega
    · intro h; omega

theorem trailingDots_TrimSuffix (s : String) :
    trailingDots (strings.TrimSuffix s ".") = trailingDots s - 1 := by
  rcases TrimSuffix_dot_cases s with ⟨h0, _, ht⟩ | ⟨u, _, ht, hn⟩
  · rw [ht, h0]
  · rw [ht, hn]; rfl

/-! ## Claims about the constructors -/

/-- C7: `NewEndpointWithTTL` strips exactly one trailing dot from the name and from the
target.  Built from `s` followed by `"."`, the DNSName (respectively the sole target) is `s`,
also when `s` itself ends in a dot; built from an `s` whose last character is not a dot, it
is `s` unchanged.  Hence `"example.com."` and `"example.com"` give the same DNSName, and
`NewEndpoint("example.com.", "1.2.3.4.", "A")` has DNSName `"example.com"` and targets that
render as `"1.2.3.4"`. -/
theorem NewEndpointWithTTL_strips_one_dot (s other recordType : String) (ttl : TTL) :
    (NewEndpointWithTTL (s ++ ".") other recordType ttl).DNSName = s ∧
    (NewEndpointWithTTL other (s ++ ".") recordType ttl).Targets = [s] ∧
    (s.data.getLast? ≠ some '.' →
      (NewEndpointWithTTL s other recordType ttl).DNSName = s ∧
      (NewEndpointWithTTL other s recordType ttl).Targets = [s]) ∧
    (NewEndpointWithTTL "example.com." other recordType ttl).DNSName =
      (NewEndpointWithTTL "example.com" other recordType ttl).DNSName ∧
    (NewEndpoint "example.com." "1.2.3.4." "A").DNSName = "example.com" ∧
    Targets.String (NewEndpoint "example.com." "1.2.3.4." "A").Targets = "1.2.3.4" := by
  refine ⟨TrimSuffix_append_dot s, ?_, ?_, ?_, by decide, by decide⟩
  · show [strings.TrimSuffix (s ++ ".") "."] = [s]
    rw [TrimSuffix_append_dot]
  · intro h
    refine ⟨TrimSuffix_of_no_dot s h, ?_⟩
    show [strings.TrimSuffix s "."] = [s]
    rw [TrimSuffix_of_no_dot s h]
  · show strings.TrimSuffix "example.com." "." = strings.TrimSuffix "example.com" "."
    decide

/-- Witness for C7: `"a.."` followed by a dot is stripped back to `"a.."`, and
`"example.com"`, which does not end in a dot, is kept as it is. -/
theorem NewEndpointWithTTL_strips_one_dot_witness :
    (NewEndpointWithTTL ("a.." ++ ".") "b" "A" 60).DNSName = "a.." ∧
    ("example.com".data.getLast? ≠ some '.' ∧
      (NewEndpointWithTTL "example.com" "b" "A" 60).DNSName = "example.com" ∧
      (NewEndpointWithTTL "b" "example.com" "A" 60).Targets = ["example.com"]) :=
  ⟨(NewEndpointWithTTL_strips_one_dot "a.." "b" "A" 60).1,
    by decide,
    (NewEndpointWithTTL_strips_one_dot "example.com" "b" "A" 60).2.2.1 (by decide)⟩

/-- Counterexample to C8 as stated: built from `"a.."` and `"b.."` an endpoint has DNSName
`"a."` and target `"b."`; building again from those gives `"a"` and `"b"`, not the same
values. -/
theorem rebuild_two_dots_counterexample :
    (NewEndpointWithTTL "a.." "b.." "A" 0).DNSName = "a." ∧
    (NewEndpointWithTTL "a.." "b.." "A" 0).Targets = ["b."] ∧
    (NewEndpointWithTTL (NewEndpointWithTTL "a.." "b.." "A" 0).DNSName "b." "A" 0).DNSName =
      "a" ∧
    (NewEndpointWithTTL (NewEndpointWithTTL "a.." "b.." "A" 0).DNSName "b." "A" 0).Targets =
      ["b"] ∧
    (NewEndpointWithTTL (NewEndpointWithTTL "a.." "b.." "A" 0).DNSName "b." "A" 0).DNSName ≠
      (NewEndpointWithTTL "a.." "b.." "A" 0).DNSName ∧
    (NewEndpointWithTTL (NewEndpointWithTTL "a.." "b.." "A" 0).DNSName "b." "A" 0).Targets ≠
      (NewEndpointWithTTL "a.." "b.." "A" 0).Targets := by
  decide

/-- C8, amended: construction strips one trailing dot, so building an endpoint again from
the DNSName and the target of an already built endpoint yields the same DNSName exactly when
the original name ended in at most one dot, and the same target exactly when the original
target ended in at most one dot; in every case the rebuilt value ends in one dot fewer than
the built one (none when the built one had none). -/
theorem rebuild_same_iff_at_most_one_dot (name target recordType : String) (ttl : TTL) :
    ∃ (e : Endpoint) (x : String),
      e = NewEndpointWithTTL name target recordType ttl ∧ e.Targets = [x] ∧
      ((NewEndpointWithTTL e.DNSName x recordType ttl).DNSName = e.DNSName ↔
        trailingDots name ≤ 1) ∧
      ((NewEndpointWithTTL e.DNSName x recordType ttl).Targets = e.Targets ↔
        trailingDots target ≤ 1) ∧
      trailingDots (NewEndpointWithTTL e.DNSName x recordType ttl).DNSName =
        trailingDots e.DNSName - 1 ∧
      (∀ y, (NewEndpointWithTTL e.DNSName x recordType ttl).Targets = [y] →
        trailingDots y = trailingDots x - 1) := by
  refine ⟨_, strings.TrimSuffix target ".", rfl, rfl, ?_, ?_, ?_, ?_⟩
  · show strings.TrimSuffix (strings.TrimSuffix name ".") "." = strings.TrimSuffix name "." ↔ _
    rw [TrimSuffix_fixed_iff, trailingDots_TrimSuffix]
    omega
  · show [strings.TrimSuffix (strings.TrimSuffix target ".") "."] =
      [strings.TrimSuffix target "."] ↔ _
    rw [List.cons.injEq, and_iff_left rfl, TrimSuffix_fixed_iff, trailingDots_TrimSuffix]
    omega
  · exact trailingDots_TrimSuffix _
  · intro y hy
    have : strings.TrimSuffix (strings.TrimSuffix target ".") "." = y := by
      have h : [strings.TrimSuffix (strings.TrimSuffix target ".") "."] = [y] := hy
      exact List.head_eq_of_cons_eq h
    rw [← this]
    exact trailingDots_TrimSuffix _

/-- C9: for every name, target, record type string and TTL, `NewEndpointWithTTL` returns an
endpoint whose Targets holds exactly one element, the target with its trailing dot stripped
(the target is that element followed by a dot, or it is that element and does not end in a
dot), whose RecordType is the given string and whose RecordTTL is the given TTL, both
verbatim: also for a record type that is empty or none of `"A"`, `"CNAME"`, `"TXT"`, and for
a TTL that is zero or negative.  The function is total, so construction cannot fail. -/
theorem NewEndpointWithTTL_fields (name target recordType : String) (ttl : TTL) :
    (∃ x : String, (NewEndpointWithTTL name target recordType ttl).Targets = [x] ∧
      (target = x ++ "." ∨ (target = x ∧ target.data.getLast? ≠ some '.'))) ∧
    (NewEndpointWithTTL name target recordType ttl).Targets.length = 1 ∧
    (NewEndpointWithTTL name target recordType ttl).RecordType = recordType ∧
    (NewEndpointWithTTL name target recordType ttl).RecordTTL = ttl ∧
    (NewEndpointWithTTL name target "" 0).RecordType = "" ∧
    (NewEndpointWithTTL name target "BOGUS" (-5)).RecordType = "BOGUS" ∧
    (NewEndpointWithTTL name target "BOGUS" (-5)).RecordTTL = -5 := by
  refine ⟨⟨strings.TrimSuffix target ".", rfl, ?_⟩, rfl, rfl, rfl, rfl, rfl, rfl⟩
  rcases TrimSuffix_dot_cases target with ⟨_, hlast, ht⟩ | ⟨u, hu, ht, _⟩
  · right
    exact ⟨ht.symm, hlast⟩
  · left
    rw [ht]
    exact hu

/-- C10: for every name, target and record type, `NewEndpoint(name, target, recordType)`
returns the same endpoint as `NewEndpointWithTTL(name, target, recordType, 0)`; its RecordTTL
is 0 and `IsConfigured` on it is false. -/
theorem NewEndpoint_eq_WithTTL_zero (name target recordType : String) :
    NewEndpoint name target recordType = NewEndpointWithTTL name target recordType 0 ∧
    (NewEndpoint name target recordType).RecordTTL = 0 ∧
    TTL.IsConfigured (NewEndpoint name target recordType).RecordTTL = false := by
  refine ⟨rfl, rfl, ?_⟩
  show TTL.IsConfigured 0 = false
  decide

/-! ## Rendering: decimal numerals and joined strings -/

theorem decimalLoop_pos : ∀ (fuel u : Nat) (buf : List Char), u ≤ fuel → 0 < u →
    fmt.decimalLoop fuel u buf =
      (Nat.digits 10 u).reverse.map (fun k => Char.ofNat (48 + k)) ++ buf := by
  intro fuel
  induction fuel with
  | zero => intro u buf h1 h2; omega
  | succ fuel ih =>
    intro u buf hle hpos
    unfold fmt.decimalLoop
    by_cases h10 : u ≥ 10
    · rw [if_pos h10, ih (u / 10) _ (by omega) (by omega),
        Nat.digits_def' (by decide) hpos]
      simp
    · rw [if_neg h10, Nat.digits_of_lt 10 u (by omega) (by omega)]
      simp

theorem decimalLoop_eq (u : Nat) : fmt.decimalLoop u u [] = decimalDigits u := by
  unfold decimalDigits
  by_cases h : u = 0
  · subst h
    rfl
  · rw [if_neg h, decimalLoop_pos u u [] (le_refl _) (by omega)]
    simp

theorem formatDecimal_data (n : Int) :
    (fmt.formatDecimal n).data =
      (if n < 0 then ['-'] else []) ++ decimalDigits n.natAbs := by
  unfold fmt.formatDecimal
  by_cases h : n < 0
  · simp only [if_pos h, decimalLoop_eq]
    rfl
  · simp only [if_neg h, decimalLoop_eq]
    rfl

theorem intercalate_go_eq (sep : String) : ∀ (l : List String) (acc : String),
    String.intercalate.go acc sep l = l.foldl (fun b s => b ++ sep ++ s) acc := by
  intro l
  induction l with
  | nil => intro acc; rfl
  | cons a l ih => intro acc; simp only [String.intercalate.go, List.foldl_cons, ih]

theorem Join_eq_intercalate (t : List String) (sep : String) :
    strings.Join t sep = sep.intercalate t := by
  cases t with
  | nil => rfl
  | cons a rest =>
    cases rest with
    | nil => rfl
    | cons b rest =>
      simp only [strings.Join, String.intercalate, intercalate_go_eq]

theorem foldl_sep_append (sep : String) : ∀ (l : List String) (a c : String),
    l.foldl (fun b s => b ++ sep ++ s) (a ++ c) = a ++ l.foldl (fun b s => b ++ sep ++ s) c := by
  intro l
  induction l with
  | nil => intro a c; rfl
  | cons x l ih =>
    intro a c
    simp only [List.foldl_cons]
    rw [← ih a (c ++ sep ++ x)]
    simp only [String.append_assoc]

theorem Join_cons_cons (a b : String) (rest : List String) (sep : String) :
    strings.Join (a :: b :: rest) sep = a ++ sep ++ strings.Join (b :: rest) sep := by
  have hb : strings.Join (b :: rest) sep = rest.foldl (fun b s => b ++ sep ++ s) b := by
    cases rest with
    | nil => rfl
    | cons c rest => rfl
  rw [hb]
  show (b :: rest).foldl (fun b s => b ++ sep ++ s) a = _
  simp only [List.foldl_cons]
  rw [String.append_assoc, foldl_sep_append, foldl_sep_append, String.append_assoc]

/-! ## Claims about rendering, the TTL and `NewTargets` -/

/-- C11: for every endpoint, `String` returns the DNSName, a space, the TTL as a signed
decimal integer (a `-` exactly when it is negative, then the decimal numeral of its
magnitude, also when that is zero), `" IN "`, the RecordType, a space, and the targets joined
with `";"` in their current order.  On `NewEndpointWithTTL("x.example.com",
"y.example.com", "CNAME", 60)` it is `"x.example.com 60 IN CNAME y.example.com"`; a TTL of 0
and a TTL of -5 are rendered as `0` and `-5`. -/
theorem Endpoint_String_layout (e : Endpoint) :
    (∃ ttl : String,
      Endpoint.String e =
        e.DNSName ++ " " ++ ttl ++ " IN " ++ e.RecordType ++ " " ++ ";".intercalate e.Targets ∧
      ttl.data = (if e.RecordTTL < 0 then ['-'] else []) ++ decimalDigits e.RecordTTL.natAbs) ∧
    Endpoint.String (NewEndpointWithTTL "x.example.com" "y.example.com" "CNAME" 60) =
      "x.example.com 60 IN CNAME y.example.com" ∧
    Endpoint.String (NewEndpointWithTTL "x.example.com" "y.example.com" "CNAME" 0) =
      "x.example.com 0 IN CNAME y.example.com" ∧
    Endpoint.String ⟨"n", ["b", "a", "c"], "A", -5, []⟩ = "n -5 IN A b;a;c" := by
  refine ⟨⟨fmt.formatDecimal e.RecordTTL, ?_, formatDecimal_data e.RecordTTL⟩,
    by decide, by decide, by decide⟩
  unfold Endpoint.String Targets.String
  rw [Join_eq_intercalate]

/-- C12: for every TTL value `t`, `t.IsConfigured()` is true if and only if `t` is strictly
greater than zero; `TTL(0)` and `TTL(-5)` are not configured and `TTL(1)` is. -/
theorem TTL_IsConfigured_iff_pos (t : TTL) :
    (TTL.IsConfigured t = true ↔ 0 < t) ∧
    TTL.IsConfigured 0 = false ∧ TTL.IsConfigured (-5) = false ∧
    TTL.IsConfigured 1 = true := by
  refine ⟨?_, by decide, by decide, by decide⟩
  unfold TTL.IsConfigured
  simp

/-- C13: for every target collection, `String` returns its values in their current order
with a single `";"` between consecutive values: the empty string for an empty collection,
the value itself for a one-element collection, and otherwise the first value, a `";"` and
the rendering of the rest; so there is no leading and no trailing separator. -/
theorem Targets_String_joined (t : Targets) :
    Targets.String [] = "" ∧
    (∀ a : String, Targets.String [a] = a) ∧
    (∀ (a b : String) (rest : Targets),
      Targets.String (a :: b :: rest) = a ++ ";" ++ Targets.String (b :: rest)) ∧
    (Targets.String t).data = (List.intersperse [';'] (t.map String.data)).flatten ∧
    Targets.String ["b", "a", "c"] = "b;a;c" := by
  refine ⟨rfl, fun _ => rfl, fun a b rest => Join_cons_cons a b rest ";", ?_, by decide⟩
  induction t with
  | nil => rfl
  | cons a t ih =>
    cases t with
    | nil => simp [Targets.String, strings.Join]
    | cons b rest =>
      unfold Targets.String at ih ⊢
      rw [Join_cons_cons, String.data_append, String.data_append, ih]
      simp [List.intersperse]

/-- C14: for every sequence of strings `vs`, `NewTargets(vs...)` holds exactly the values of
`vs`, in the same order and with the same length: duplicates are kept and nothing is sorted,
trimmed or otherwise normalised. -/
theorem NewTargets_keeps_values (vs : List String) :
    NewTargets vs = vs ∧
    (NewTargets vs).length = vs.length ∧
    (∀ i : Nat, (NewTargets vs)[i]? = vs[i]?) ∧
    NewTargets ["b.", "a", " A ", "a", ""] = ["b.", "a", " A ", "a", ""] := by
  have h : NewTargets vs = vs := by
    unfold NewTargets
    simp
  refine ⟨h, by rw [h], fun i => by rw [h], by decide⟩


/-! ## Claims about what decides a comparison -/

/-- Counterexample to C15 as stated: `["a", "a", "b"]` and `["a", "b", "b"]`, held one
after the other, contain the same set of values, yet `Same` returns false on them; so it
does on `["a"]` and `["a", "a"]`, and on the overlapping slices `s[0:2]` and `s[1:3]` of
`["a", "b", "a"]`, which hold `["a", "b"]` and `["b", "a"]`. -/
theorem Same_same_set_counterexample :
    ((⟨0, 3⟩ : Slice).read ["a", "a", "b", "a", "b", "b"] = ["a", "a", "b"] ∧
      (⟨3, 3⟩ : Slice).read ["a", "a", "b", "a", "b", "b"] = ["a", "b", "b"] ∧
      (∀ v ∈ (["a", "a", "b"] : Targets), v ∈ (["a", "b", "b"] : Targets)) ∧
      (∀ v ∈ (["a", "b", "b"] : Targets), v ∈ (["a", "a", "b"] : Targets)) ∧
      Targets.Same ⟨0, 3⟩ ⟨3, 3⟩ ["a", "a", "b", "a", "b", "b"] =
        some (false, ["a", "a", "b", "a", "b", "b"])) ∧
    ((⟨0, 1⟩ : Slice).read ["a", "a", "a"] = ["a"] ∧
      (⟨1, 2⟩ : Slice).read ["a", "a", "a"] = ["a", "a"] ∧
      (∀ v ∈ (["a"] : Targets), v ∈ (["a", "a"] : Targets)) ∧
      (∀ v ∈ (["a", "a"] : Targets), v ∈ (["a"] : Targets)) ∧
      Targets.Same ⟨0, 1⟩ ⟨1, 2⟩ ["a", "a", "a"] = some (false, ["a", "a", "a"])) ∧
    ((⟨0, 2⟩ : Slice).read ["a", "b", "a"] = ["a", "b"] ∧
      (⟨1, 2⟩ : Slice).read ["a", "b", "a"] = ["b", "a"] ∧
      (∀ v ∈ (["a", "b"] : Targets), v ∈ (["b", "a"] : Targets)) ∧
      (∀ v ∈ (["b", "a"] : Targets), v ∈ (["a", "b"] : Targets)) ∧
      Targets.Same ⟨0, 2⟩ ⟨1, 2⟩ ["a", "b", "a"] = some (false, ["a", "a", "b"])) := by
  decide

/-- C15, amended: on two target collections that do not partly overlap in storage `Same`
is a multiset-equality check: `A.Same(B)` returns true exactly when every value occurs in
`A` as many times as it occurs in `B`.  Hence when it returns true the two contain the same
set of values, and for two such collections without duplicate values it returns true exactly
when they contain the same set of values. -/
theorem Same_iff_same_counts (t o : Slice) (mem : Memory) (ht : t.within mem)
    (ho : o.within mem) (hu : t.unshared o) :
    ∃ ret mem2, Targets.Same t o mem = some (ret, mem2) ∧
      (ret = true ↔ ∀ v : String, (t.read mem).count v = (o.read mem).count v) ∧
      (ret = true → ∀ v : String, v ∈ t.read mem ↔ v ∈ o.read mem) ∧
      ((t.read mem).Nodup → (o.read mem).Nodup →
        (ret = true ↔ ∀ v : String, v ∈ t.read mem ↔ v ∈ o.read mem)) := by
  obtain ⟨ret, mem2, hrun, hiff, _, _⟩ := Same_ret t o mem ht ho hu
  unfold sameValues at hiff
  have hperm : ret = true ↔ (t.read mem).Perm (o.read mem) := by
    rw [hiff]
    constructor
    · rintro ⟨_, h⟩
      exact (sortedForm_eq_iff_perm _ _).mp h
    · intro h
      exact ⟨h.length_eq, (sortedForm_eq_iff_perm _ _).mpr h⟩
  refine ⟨ret, mem2, hrun, hperm.trans List.perm_iff_count, ?_, ?_⟩
  · intro h v
    exact (hperm.mp h).mem_iff
  · intro hA hB
    exact hperm.trans (List.perm_ext_iff_of_nodup hA hB)

/-- Witness for C15, amended: `["a", "b"]` and `["b", "a"]`, held one after the other, have
no duplicate and the same set of values, and `Same` returns true on them. -/
theorem Same_iff_same_counts_witness :
    ((⟨0, 2⟩ : Slice).within ["a", "b", "b", "a"] ∧ (⟨2, 2⟩ : Slice).within ["a", "b", "b", "a"] ∧
      (⟨0, 2⟩ : Slice).unshared ⟨2, 2⟩) ∧
    Targets.Same ⟨0, 2⟩ ⟨2, 2⟩ ["a", "b", "b", "a"] = some (true, ["a", "b", "a", "b"]) ∧
    ∃ ret mem2, Targets.Same ⟨0, 2⟩ ⟨2, 2⟩ ["a", "b", "b", "a"] = some (ret, mem2) ∧
      (ret = true ↔
        ∀ v : String, v ∈ (⟨0, 2⟩ : Slice).read ["a", "b", "b", "a"] ↔
          v ∈ (⟨2, 2⟩ : Slice).read ["a", "b", "b", "a"]) :=
  ⟨by decide, by decide,
    (Same_iff_same_counts ⟨0, 2⟩ ⟨2, 2⟩ ["a", "b", "b", "a"]
      (by decide) (by decide) (by decide)).elim
      fun ret h => h.elim fun mem2 h2 =>
        ⟨ret, mem2, h2.1, h2.2.2.2 (by decide) (by decide)⟩⟩

/-- C16: `Same` and `IsLess` are total.  For every pair of target collections, empty ones,
unequal lengths and overlapping storage included, each returns a boolean: the sorts return
and keep the size of the memory, and in the comparison loops, entered only with operands of
one length, every read `o[i]` is within bounds.  (A read past the end is a failure of the
loop, as on a shorter `o`; the length test rules it out.) -/
theorem Same_and_IsLess_total (t o : Slice) (mem : Memory) (ht : t.within mem)
    (ho : o.within mem) :
    (∃ out, Targets.Same t o mem = some out) ∧
    (∃ out, Targets.IsLess t o mem = some out) ∧
    (∃ mem1, sort.Stable t mem = some mem1 ∧ mem1.length = mem.length) ∧
    (∃ mem1, sort.Sort_ t mem = some mem1 ∧ mem1.length = mem.length) ∧
    (t.len = o.len →
      (∃ b, Targets.sameLoop t o t.len 0 mem = some b) ∧
      (∃ b, Targets.isLessLoop t o t.len 0 mem = some b)) ∧
    Targets.sameLoop ⟨0, 2⟩ ⟨2, 1⟩ 2 0 ["a", "b", "a"] = none ∧
    Targets.isLessLoop ⟨0, 2⟩ ⟨2, 1⟩ 2 0 ["a", "b", "a"] = none ∧
    Targets.Same ⟨0, 0⟩ ⟨0, 0⟩ [] = some (true, []) ∧
    Targets.IsLess ⟨0, 0⟩ ⟨0, 0⟩ [] = some (false, []) ∧
    Targets.Same ⟨0, 0⟩ ⟨0, 1⟩ ["a"] = some (false, ["a"]) ∧
    Targets.IsLess ⟨0, 1⟩ ⟨0, 0⟩ ["a"] = some (false, ["a"]) := by
  have hl1 : (sortedForm (t.read mem)).length = t.len := by
    rw [sortedForm_length, read_length t mem ht]
  refine ⟨?_, ?_, ⟨_, Stable_eq t mem ht, write_length t mem _ ht hl1⟩,
    ⟨_, Sort_eq t mem ht, write_length t mem _ ht hl1⟩,
    ?_, by decide, by decide, by decide, by decide, by decide, by decide⟩
  · by_cases hlen : t.len = o.len
    · obtain ⟨_, mem2, _, _, _, hrun⟩ := Same_general t o mem ht ho hlen
      exact ⟨_, hrun⟩
    · exact ⟨_, Same_of_length_ne t o mem hlen⟩
  · rcases Nat.lt_trichotomy t.len o.len with h | h | h
    · exact ⟨_, IsLess_of_length_lt t o mem h⟩
    · obtain ⟨_, mem2, r, _, _, _, hrun, _⟩ := IsLess_general t o mem ht ho h
      exact ⟨_, hrun⟩
    · exact ⟨_, IsLess_of_length_gt t o mem h⟩
  · intro hlen
    obtain ⟨r, h2, _⟩ := isLessLoop_spec t o mem ht ho hlen t.len 0 (by omega)
    exact ⟨⟨_, sameLoop_spec t o mem ht ho hlen t.len 0 (by omega)⟩, ⟨r, h2⟩⟩

/-- Witness for C16: on the overlapping slices `s[0:2]` and `s[1:3]` of `["a", "b", "a"]`
both comparisons return. -/
theorem Same_and_IsLess_total_witness :
    ((⟨0, 2⟩ : Slice).within ["a", "b", "a"] ∧ (⟨1, 2⟩ : Slice).within ["a", "b", "a"]) ∧
    (∃ out, Targets.Same ⟨0, 2⟩ ⟨1, 2⟩ ["a", "b", "a"] = some out) ∧
    (∃ out, Targets.IsLess ⟨0, 2⟩ ⟨1, 2⟩ ["a", "b", "a"] = some out) :=
  ⟨by decide,
    (Same_and_IsLess_total ⟨0, 2⟩ ⟨1, 2⟩ ["a", "b", "a"] (by decide) (by decide)).1,
    (Same_and_IsLess_total ⟨0, 2⟩ ⟨1, 2⟩ ["a", "b", "a"] (by decide) (by decide)).2.1⟩

/-- Counterexample to C17 as stated: the slices `s[0:2]` and `s[1:3]` of `["a", "b", "a"]`
hold `["a", "b"]` and `["b", "a"]`, and `IsLess` returns true on them; on the same two
collections held one after the other in `["a", "b", "b", "a"]` it returns false. -/
theorem IsLess_storage_counterexample :
    (⟨0, 2⟩ : Slice).read ["a", "b", "a"] = (⟨0, 2⟩ : Slice).read ["a", "b", "b", "a"] ∧
    (⟨1, 2⟩ : Slice).read ["a", "b", "a"] = (⟨2, 2⟩ : Slice).read ["a", "b", "b", "a"] ∧
    Targets.IsLess ⟨0, 2⟩ ⟨1, 2⟩ ["a", "b", "a"] = some (true, ["a", "a", "b"]) ∧
    Targets.IsLess ⟨0, 2⟩ ⟨2, 2⟩ ["a", "b", "b", "a"] = some (false, ["a", "b", "a", "b"]) := by
  decide

/-- C17, amended: on operands that do not partly overlap in storage, the result of `IsLess`
depends only on the multisets of values, not on the order in which the operands hold them:
when `A1` is a permutation of `A` and `B1` a permutation of `B`, `A` and `B` do not partly
overlap and neither do `A1` and `B1`, then `A.IsLess(B)` and `A1.IsLess(B1)` return the same
boolean. -/
theorem IsLess_permutation_invariant (t o t1 o1 : Slice) (mem mem1 : Memory)
    (ht : t.within mem) (ho : o.within mem) (hu : t.unshared o)
    (ht1 : t1.within mem1) (ho1 : o1.within mem1) (hu1 : t1.unshared o1)
    (hA : (t1.read mem1).Perm (t.read mem)) (hB : (o1.read mem1).Perm (o.read mem)) :
    ∃ r m r1 m1, Targets.IsLess t o mem = some (r, m) ∧
      Targets.IsLess t1 o1 mem1 = some (r1, m1) ∧ r = r1 := by
  obtain ⟨r, m, hrun, hiff, _, _⟩ := IsLess_ret t o mem ht ho hu
  obtain ⟨r1, m1, hrun1, hiff1, _, _⟩ := IsLess_ret t1 o1 mem1 ht1 ho1 hu1
  exact ⟨r, m, r1, m1, hrun, hrun1,
    Bool.eq_iff_iff.mpr (hiff.trans ((ranksBelow_congr hA hB).symm.trans hiff1.symm))⟩

/-- Witness for C17, amended: `["c", "a", "b"]` against `["b", "d", "a"]` and the
rearranged `["b", "c", "a"]` against `["a", "b", "d"]`, each pair held one after the other,
both give true. -/
theorem IsLess_permutation_invariant_witness :
    (((⟨0, 3⟩ : Slice).read ["b", "c", "a", "a", "b", "d"]).Perm
        ((⟨0, 3⟩ : Slice).read ["c", "a", "b", "b", "d", "a"]) ∧
      ((⟨3, 3⟩ : Slice).read ["b", "c", "a", "a", "b", "d"]).Perm
        ((⟨3, 3⟩ : Slice).read ["c", "a", "b", "b", "d", "a"])) ∧
    Targets.IsLess ⟨0, 3⟩ ⟨3, 3⟩ ["c", "a", "b", "b", "d", "a"] =
      some (true, ["a", "b", "c", "a", "b", "d"]) ∧
    Targets.IsLess ⟨0, 3⟩ ⟨3, 3⟩ ["b", "c", "a", "a", "b", "d"] =
      some (true, ["a", "b", "c", "a", "b", "d"]) ∧
    ∃ r m r1 m1, Targets.IsLess ⟨0, 3⟩ ⟨3, 3⟩ ["c", "a", "b", "b", "d", "a"] = some (r, m) ∧
      Targets.IsLess ⟨0, 3⟩ ⟨3, 3⟩ ["b", "c", "a", "a", "b", "d"] = some (r1, m1) ∧ r = r1 :=
  ⟨by decide, by decide, by decide,
    IsLess_permutation_invariant ⟨0, 3⟩ ⟨3, 3⟩ ⟨0, 3⟩ ⟨3, 3⟩ ["c", "a", "b", "b", "d", "a"]
      ["b", "c", "a", "a", "b", "d"] (by decide) (by decide) (by decide) (by decide)
      (by decide) (by decide) (by decide) (by decide)⟩

theorem Same_again (t o : Slice) (mem : Memory) (ht : t.within mem) (ho : o.within mem)
    (hu : t.unshared o) (r : Bool) (mem1 : Memory) (h : Targets.Same t o mem = some (r, mem1)) :
    Targets.Same t o mem1 = some (r, mem1) := by
  by_cases hlen : t.len = o.len
  · obtain ⟨m2, hrun, hl, hrt, hro, _⟩ := Same_of_length_eq t o mem ht ho hu hlen
    rw [hrun] at h
    cases h
    have ht1 := within_of_length ht hl
    have ho1 := within_of_length ho hl
    obtain ⟨n1, n2, e1, e2, _, hrun2⟩ := Same_general t o mem1 ht1 ho1 hlen
    rw [hrt, sortedForm_idem, ← hrt, write_read_self t mem1 ht1] at e1
    subst e1
    rw [hro, sortedForm_idem, ← hro, write_read_self o n1 ho1] at e2
    subst e2
    rw [hrun2, hrt, hro]
  · rw [Same_of_length_ne t o mem hlen] at h
    cases h
    exact Same_of_length_ne t o mem hlen

theorem IsLess_again (t o : Slice) (mem : Memory) (ht : t.within mem) (ho : o.within mem)
    (hu : t.unshared o) (r : Bool) (mem1 : Memory)
    (h : Targets.IsLess t o mem = some (r, mem1)) :
    Targets.IsLess t o mem1 = some (r, mem1) := by
  rcases Nat.lt_trichotomy t.len o.len with hlen | hlen | hlen
  · rw [IsLess_of_length_lt t o mem hlen] at h
    cases h
    exact IsLess_of_length_lt t o mem hlen
  · obtain ⟨r0, m2, hrun, hiff, hl, hrt, hro, _⟩ :=
      IsLess_of_length_eq t o mem ht ho hu hlen
    rw [hrun] at h
    cases h
    have ht1 := within_of_length ht hl
    have ho1 := within_of_length ho hl
    obtain ⟨n1, n2, r2, e1, e2, _, hrun2, hiff2⟩ := IsLess_general t o mem1 ht1 ho1 hlen
    rw [hrt, sortedForm_idem, ← hrt, write_read_self t mem1 ht1] at e1
    subst e1
    rw [hro, sortedForm_idem, ← hro, write_read_self o n1 ho1] at e2
    subst e2
    rw [hrt, hro] at hiff2
    have : r2 = r := Bool.eq_iff_iff.mpr (hiff2.trans hiff.symm)
    rw [hrun2, this]
  · rw [IsLess_of_length_gt t o mem hlen] at h
    cases h
    exact IsLess_of_length_gt t o mem hlen

/-- Counterexample to C18 as stated: in the array `["b", "b", "a"]` with `A = s[0:2]` and
`B = s[1:3]`, a first `A.IsLess(B)` returns false and leaves `["b", "a", "b"]`; the second
call, on that memory, returns true and reorders the array again. -/
theorem repeat_overlap_counterexample :
    Targets.IsLess ⟨0, 2⟩ ⟨1, 2⟩ ["b", "b", "a"] = some (false, ["b", "a", "b"]) ∧
    Targets.IsLess ⟨0, 2⟩ ⟨1, 2⟩ ["b", "a", "b"] = some (true, ["a", "b", "b"]) := by
  decide

/-- C18, amended: on operands that do not partly overlap in storage, the reordering done by
a comparison does not change later answers.  A second `Same` (or `IsLess`) on the memory the
first call left returns the same boolean and leaves the memory as it is; `IsLess` called
after `Same` returns what it returns on the original memory, and so does `Same` called after
`IsLess`. -/
theorem comparison_repeatable (t o : Slice) (mem : Memory) (ht : t.within mem)
    (ho : o.within mem) (hu : t.unshared o) :
    (∃ r m1, Targets.Same t o mem = some (r, m1) ∧ Targets.Same t o m1 = some (r, m1)) ∧
    (∃ r m1, Targets.IsLess t o mem = some (r, m1) ∧
      Targets.IsLess t o m1 = some (r, m1)) ∧
    (∃ r m1 r2 m2 r0 m0, Targets.Same t o mem = some (r, m1) ∧
      Targets.IsLess t o m1 = some (r2, m2) ∧ Targets.IsLess t o mem = some (r0, m0) ∧
      r2 = r0) ∧
    (∃ r m1 r2 m2 r0 m0, Targets.IsLess t o mem = some (r, m1) ∧
      Targets.Same t o m1 = some (r2, m2) ∧ Targets.Same t o mem = some (r0, m0) ∧
      r2 = r0) := by
  obtain ⟨rs, ms, hs, is, ls, ps⟩ := Same_ret t o mem ht ho hu
  obtain ⟨rl, ml, hl, il, ll, pl⟩ := IsLess_ret t o mem ht ho hu
  refine ⟨⟨rs, ms, hs, Same_again t o mem ht ho hu rs ms hs⟩,
    ⟨rl, ml, hl, IsLess_again t o mem ht ho hu rl ml hl⟩, ?_, ?_⟩
  · obtain ⟨r2, m2, h2, i2, _, _⟩ := IsLess_step t o mem ms
      (within_of_length ht ls) (within_of_length ho ls) hu
      (ps t (unshared_refl t) hu) (ps o (unshared_symm hu) (unshared_refl o))
    exact ⟨rs, ms, r2, m2, rl, ml, hs, h2, hl, Bool.eq_iff_iff.mpr (i2.trans il.symm)⟩
  · obtain ⟨r2, m2, h2, i2, _, _⟩ := Same_step t o mem ml
      (within_of_length ht ll) (within_of_length ho ll) hu
      (pl t (unshared_refl t) hu) (pl o (unshared_symm hu) (unshared_refl o))
    exact ⟨rl, ml, r2, m2, rs, ms, hl, h2, hs, Bool.eq_iff_iff.mpr (i2.trans is.symm)⟩

/-- Witness for C18, amended: on `["b", "a"]` and `["a", "c"]`, held one after the other,
the first `IsLess` returns true and sorts the receiver; the second returns true again and
changes nothing. -/
theorem comparison_repeatable_witness :
    ((⟨0, 2⟩ : Slice).within ["b", "a", "a", "c"] ∧ (⟨2, 2⟩ : Slice).within ["b", "a", "a", "c"] ∧
      (⟨0, 2⟩ : Slice).unshared ⟨2, 2⟩) ∧
    Targets.IsLess ⟨0, 2⟩ ⟨2, 2⟩ ["b", "a", "a", "c"] = some (true, ["a", "b", "a", "c"]) ∧
    Targets.IsLess ⟨0, 2⟩ ⟨2, 2⟩ ["a", "b", "a", "c"] = some (true, ["a", "b", "a", "c"]) ∧
    ∃ r m1, Targets.IsLess ⟨0, 2⟩ ⟨2, 2⟩ ["b", "a", "a", "c"] = some (r, m1) ∧
      Targets.IsLess ⟨0, 2⟩ ⟨2, 2⟩ m1 = some (r, m1) :=
  ⟨by decide, by decide, by decide,
    (comparison_repeatable ⟨0, 2⟩ ⟨2, 2⟩ ["b", "a", "a", "c"]
      (by decide) (by decide) (by decide)).2.1⟩
